import Mathlib

/-!
Velocity control system (`src/systems/velocity_control/VelocityControl.cc`).

A shallow embedding of the `VelocityControl` system plugin: the private data
`VelocityControlPrivate`, the transport callbacks `OnCmdVel` / `OnLinkCmdVel`,
and the step hooks `Configure`, `PreUpdate`, `PostUpdate` (with
`UpdateLinkVelocity`).

Conventions of the embedding.

* The coordinates of a vector are only stored and copied by this system, never
  computed with; an integer stands for each `double`.
* A `std::unordered_map<std::string, T>` is a list of key/value pairs; the list
  order stands for the (unspecified) iteration order, a fresh key goes to the
  end.  Statements that would depend on the iteration order carry hypotheses
  that make them independent of it.
* The mutex is not modelled: every operation is a function on the whole state.
* Log output (`gzerr`, `gzwarn`, `gzmsg`) is not modelled.
* `PreUpdate` returns, next to the new private data, the `SetComponentData`
  calls it makes on the entity component manager, in call order.
-/

namespace VelocityControl

/-! ## Value types -/

/-- Coordinate of a vector (stands for a `double`; never computed with). -/
abbrev Scalar := Int

/-- Entity handle, `gz::sim::Entity` (an unsigned 64 bit identifier). -/
abbrev Entity := Nat

/-- The null entity, `gz::sim::kNullEntity`. -/
def kNullEntity : Entity := 0

namespace math

/-- A three dimensional vector, `gz::math::Vector3d`. -/
structure Vector3d where
  x : Scalar
  y : Scalar
  z : Scalar
deriving DecidableEq, Repr

/-- The zero vector, `math::Vector3d::Zero`. -/
def Vector3d.Zero : Vector3d := ⟨0, 0, 0⟩

end math

namespace msgs

/-- The protobuf vector message, `gz::msgs::Vector3d`. -/
structure Vector3d where
  x : Scalar
  y : Scalar
  z : Scalar
deriving DecidableEq, Repr

/-- The velocity message, `gz::msgs::Twist`. -/
structure Twist where
  linear : Vector3d
  angular : Vector3d
deriving DecidableEq, Repr

/-- Decoding of a vector message, `gz::msgs::Convert` (gz-msgs): the three
coordinates are copied. -/
def Convert (v : Vector3d) : math.Vector3d := ⟨v.x, v.y, v.z⟩

end msgs

namespace transport

/-- The part of `transport::MessageInfo` the callbacks read: the topic the
message arrived on. -/
structure MessageInfo where
  Topic : String
deriving DecidableEq, Repr

end transport

/-- The part of `UpdateInfo` the system reads: the step's time delta (a
`steady_clock` duration, possibly negative) and the paused flag. -/
structure UpdateInfo where
  dt : Int
  paused : Bool
deriving DecidableEq, Repr

/-! ## `std::string::find` -/

/-- Search `needle` in `hay` from the left, `pos` being the index of the head
of `hay` in the original string; `none` is `std::string::npos`. -/
def findFrom (needle : List Char) : List Char → Nat → Option Nat
  | [], pos => if needle.isPrefixOf [] then some pos else none
  | c :: rest, pos =>
    if needle.isPrefixOf (c :: rest) then some pos else findFrom needle rest (pos + 1)

/-- The call `s.find(needle)` of `std::string`: the index of the first
occurrence of `needle` in `s`, or `none` for `npos`. -/
def stdFind (s needle : String) : Option Nat := findFrom needle.data s.data 0

/-! ## `std::unordered_map<std::string, T>` -/

/-- A `std::unordered_map` keyed by strings, as a list of key/value pairs. -/
abbrev UnorderedMap (β : Type) := List (String × β)

namespace UnorderedMap

variable {β : Type}

/-- Lookup, `m.find(k)`: `none` is `m.end()`. -/
def find : UnorderedMap β → String → Option β
  | [], _ => none
  | (k', v) :: rest, k => if k' = k then some v else find rest k

/-- Insertion, `m.insert({k, v})`: nothing happens when `k` is already a key. -/
def insert (m : UnorderedMap β) (k : String) (v : β) : UnorderedMap β :=
  match find m k with
  | some _ => m
  | none => m ++ [(k, v)]

/-- Assignment, `m[k] = v`: the value of `k` is overwritten, or `k` is added. -/
def assign : UnorderedMap β → String → β → UnorderedMap β
  | [], k, v => [(k, v)]
  | (k', v') :: rest, k, v =>
    if k' = k then (k', v) :: rest else (k', v') :: assign rest k v

/-- Number of entries, `m.size()`. -/
def size (m : UnorderedMap β) : Nat := m.length

/-- The keys of the map, in iteration order. -/
def keys (m : UnorderedMap β) : List String := m.map Prod.fst

end UnorderedMap

/-! ## The entity component manager and the scene description -/

/-- The two component types the system writes. -/
inductive ComponentKind where
  | AngularVelocityCmd
  | LinearVelocityCmd
deriving DecidableEq, Repr

/-- One call `_ecm.SetComponentData<kind>(entity, {data})`. -/
structure ComponentWrite where
  kind : ComponentKind
  entity : Entity
  data : math.Vector3d
deriving DecidableEq, Repr

/-- Modelled from the spec: the component-store boundary, whose class
`EntityComponentManager` (and the `Model` helper reading it) is not part of
the sources at hand.  The store holds the two velocity command components
keyed by entity handle, and gives read access to whether an entity is a model
(`Model::Valid`), to an entity's name (`Model::Name`) and to the lookup of a
link by name scoped to a model (`Model::LinkByName`, `kNullEntity` when there
is no such link). -/
structure EntityComponentManager where
  modelValid : Entity → Bool
  modelName : Entity → String
  linkByName : Entity → String → Entity
  angularVelocityCmd : Entity → Option math.Vector3d
  linearVelocityCmd : Entity → Option math.Vector3d

namespace EntityComponentManager

/-- Modelled from the spec: `SetComponentData` of the component store, which
is not part of the sources at hand; the data is stored under the entity
handle, the component being created when the entity had none. -/
def SetComponentData (ecm : EntityComponentManager) (w : ComponentWrite) :
    EntityComponentManager :=
  match w.kind with
  | ComponentKind.AngularVelocityCmd =>
    { ecm with angularVelocityCmd := fun e =>
        if e = w.entity then some w.data else ecm.angularVelocityCmd e }
  | ComponentKind.LinearVelocityCmd =>
    { ecm with linearVelocityCmd := fun e =>
        if e = w.entity then some w.data else ecm.linearVelocityCmd e }

/-- The store after a sequence of `SetComponentData` calls, made in order. -/
def applyWrites (ecm : EntityComponentManager) (ws : List ComponentWrite) :
    EntityComponentManager :=
  ws.foldl SetComponentData ecm

/-- The component of the given kind on an entity. -/
def component (ecm : EntityComponentManager) (kind : ComponentKind) (e : Entity) :
    Option math.Vector3d :=
  match kind with
  | ComponentKind.AngularVelocityCmd => ecm.angularVelocityCmd e
  | ComponentKind.LinearVelocityCmd => ecm.linearVelocityCmd e

end EntityComponentManager

namespace sdf

/-- An `<initial_linear>` / `<initial_angular>` element: its vector value and
its optional `persistent` attribute. -/
structure VelocityElement where
  value : math.Vector3d
  persistent : Option Bool
deriving DecidableEq, Repr

/-- The part of the plugin's `sdf::Element` that `Configure` reads. -/
structure Element where
  initial_linear : Option VelocityElement
  initial_angular : Option VelocityElement
  topic : Option String
  link_name : List String
deriving DecidableEq, Repr

end sdf

/-! ## The private data -/

/-- The two callbacks a subscription can name. -/
inductive Callback where
  | OnCmdVel
  | OnLinkCmdVel
deriving DecidableEq, Repr

/-- The data of `VelocityControlPrivate`.  `node` records the `Subscribe`
calls made on the transport node (topic and callback); the mutex is left
out. -/
structure VelocityControlPrivate where
  node : List (String × Callback)
  model : Entity
  angularVelocity : Option math.Vector3d
  persistentAngularVelocity : Bool
  linearVelocity : Option math.Vector3d
  persistentLinearVelocity : Bool
  linkNames : List String
  links : UnorderedMap Entity
  angularVelocities : UnorderedMap math.Vector3d
  linearVelocities : UnorderedMap math.Vector3d
  linkVels : UnorderedMap msgs.Twist
deriving DecidableEq, Repr

/-- The freshly constructed private data (the in-class initialisers). -/
def VelocityControlPrivate.init : VelocityControlPrivate where
  node := []
  model := kNullEntity
  angularVelocity := some math.Vector3d.Zero
  persistentAngularVelocity := true
  linearVelocity := some math.Vector3d.Zero
  persistentLinearVelocity := true
  linkNames := []
  links := []
  angularVelocities := []
  linearVelocities := []
  linkVels := []

/-! ## `Configure` -/

/-- Modelled from the spec: `validTopic` of `gz/sim/Util.hh`, which is not
part of the sources at hand: the first topic of the list that the transport
accepts (after `asValidTopic`, which returns the empty string for a topic it
rejects), or the empty string. -/
def validTopic (asValidTopic : String → String) : List String → String
  | [] => ""
  | topic :: rest =>
    if asValidTopic topic = "" then validTopic asValidTopic rest else asValidTopic topic

/-- The subscriptions to the link topics made at the end of `Configure`. -/
def linkSubscriptions (asValidTopic : String → String) (modelName : String) :
    List String → List (String × Callback)
  | [] => []
  | linkName :: rest =>
    (asValidTopic ("/model/" ++ modelName ++ "/link/" ++ linkName ++ "/cmd_vel"),
      Callback.OnLinkCmdVel) :: linkSubscriptions asValidTopic modelName rest

/-- The hook `VelocityControl::Configure`.  `asValidTopic` stands for
`transport::TopicUtils::AsValidTopic`. -/
def Configure (asValidTopic : String → String) (entity : Entity) (sdf : sdf.Element)
    (ecm : EntityComponentManager) (d : VelocityControlPrivate) : VelocityControlPrivate :=
  let d := { d with model := entity }
  if !ecm.modelValid d.model then d else
  let d := match sdf.initial_linear with
    | some elem =>
      { d with
        linearVelocity := some elem.value
        persistentLinearVelocity :=
          match elem.persistent with
          | some p => p
          | none => d.persistentLinearVelocity }
    | none => d
  let d := match sdf.initial_angular with
    | some elem =>
      { d with
        angularVelocity := some elem.value
        persistentAngularVelocity :=
          match elem.persistent with
          | some p => p
          | none => d.persistentAngularVelocity }
    | none => d
  let modelTopics := (match sdf.topic with
    | some t => [t]
    | none => []) ++ ["/model/" ++ ecm.modelName d.model ++ "/cmd_vel"]
  let modelTopic := validTopic asValidTopic modelTopics
  let d := { d with node := d.node ++ [(modelTopic, Callback.OnCmdVel)] }
  if sdf.link_name.isEmpty then d else
  let d := { d with linkNames := d.linkNames ++ sdf.link_name }
  { d with node := d.node ++ linkSubscriptions asValidTopic (ecm.modelName d.model) d.linkNames }

/-! ## The transport callbacks -/

/-- The callback `VelocityControlPrivate::OnCmdVel`. -/
def OnCmdVel (msg : msgs.Twist) (d : VelocityControlPrivate) : VelocityControlPrivate :=
  { d with
    linearVelocity := some (msgs.Convert msg.linear)
    angularVelocity := some (msgs.Convert msg.angular)
    persistentLinearVelocity := true
    persistentAngularVelocity := true }

/-- The loop of `OnLinkCmdVel` over the configured link names: the first name
whose topic fragment occurs in the topic gets the `insert`, and the loop
breaks. -/
def insertPending (msg : msgs.Twist) (topic : String) :
    List String → UnorderedMap msgs.Twist → UnorderedMap msgs.Twist
  | [], linkVels => linkVels
  | linkName :: rest, linkVels =>
    if (stdFind topic ("/" ++ linkName ++ "/cmd_vel")).isSome then
      UnorderedMap.insert linkVels linkName msg
    else insertPending msg topic rest linkVels

/-- The callback `VelocityControlPrivate::OnLinkCmdVel`. -/
def OnLinkCmdVel (msg : msgs.Twist) (info : transport.MessageInfo)
    (d : VelocityControlPrivate) : VelocityControlPrivate :=
  { d with linkVels := insertPending msg info.Topic d.linkNames d.linkVels }

/-! ## `PreUpdate` -/

/-- The loop of `PreUpdate` that looks for the entities of the link names not
yet in `links`. -/
def findLinks (ecm : EntityComponentManager) (model : Entity) :
    List String → UnorderedMap Entity → UnorderedMap Entity
  | [], links => links
  | linkName :: rest, links =>
    match UnorderedMap.find links linkName with
    | some _ => findLinks ecm model rest links
    | none =>
      let link := ecm.linkByName model linkName
      if link ≠ kNullEntity then
        findLinks ecm model rest (UnorderedMap.insert links linkName link)
      else findLinks ecm model rest links

/-- The two loops of `PreUpdate` over `angularVelocities` / `linearVelocities`:
a velocity whose link name is in `links` is written to the link's entity. -/
def linkCmds (kind : ComponentKind) (links : UnorderedMap Entity) :
    UnorderedMap math.Vector3d → List ComponentWrite
  | [] => []
  | (linkName, vel) :: rest =>
    match UnorderedMap.find links linkName with
    | some e => ⟨kind, e, vel⟩ :: linkCmds kind links rest
    | none => linkCmds kind links rest

/-- The hook `VelocityControl::PreUpdate`: the new private data and the
`SetComponentData` calls made, in order.  A negative `info.dt` only triggers a
warning (log output), before the paused test. -/
def PreUpdate (info : UpdateInfo) (ecm : EntityComponentManager)
    (d : VelocityControlPrivate) : VelocityControlPrivate × List ComponentWrite :=
  if info.paused then (d, []) else
  -- update angular velocity of model
  let wAngular : List ComponentWrite := match d.angularVelocity with
    | some v => [⟨ComponentKind.AngularVelocityCmd, d.model, v⟩]
    | none => []
  let d := match d.angularVelocity with
    | some _ => if !d.persistentAngularVelocity then { d with angularVelocity := none } else d
    | none => d
  -- update linear velocity of model
  let wLinear : List ComponentWrite := match d.linearVelocity with
    | some v => [⟨ComponentKind.LinearVelocityCmd, d.model, v⟩]
    | none => []
  let d := match d.linearVelocity with
    | some _ => if !d.persistentLinearVelocity then { d with linearVelocity := none } else d
    | none => d
  if d.linkNames.isEmpty then (d, wAngular ++ wLinear) else
  -- find all the link entity ids
  let d :=
    if UnorderedMap.size d.links ≠ d.linkNames.length then
      { d with links := findLinks ecm d.model d.linkNames d.links }
    else d
  -- update link velocities
  (d, wAngular ++ wLinear
    ++ linkCmds ComponentKind.AngularVelocityCmd d.links d.angularVelocities
    ++ linkCmds ComponentKind.LinearVelocityCmd d.links d.linearVelocities)

/-! ## `PostUpdate` -/

/-- The loop of `UpdateLinkVelocity` over the pending messages. -/
def drain : UnorderedMap msgs.Twist → VelocityControlPrivate → VelocityControlPrivate
  | [], d => d
  | (linkName, msg) :: rest, d =>
    let linearVel := msgs.Convert msg.linear
    let angularVel := msgs.Convert msg.angular
    drain rest { d with
      linearVelocities := UnorderedMap.assign d.linearVelocities linkName linearVel
      angularVelocities := UnorderedMap.assign d.angularVelocities linkName angularVel }

/-- The method `VelocityControlPrivate::UpdateLinkVelocity`; neither argument
is read, and the component manager is `const`. -/
def UpdateLinkVelocity (_info : UpdateInfo) (_ecm : EntityComponentManager)
    (d : VelocityControlPrivate) : VelocityControlPrivate :=
  { drain d.linkVels d with linkVels := [] }

/-- The hook `VelocityControl::PostUpdate`; the component manager is `const`,
so only the private data can change. -/
def PostUpdate (info : UpdateInfo) (ecm : EntityComponentManager)
    (d : VelocityControlPrivate) : VelocityControlPrivate :=
  if info.paused then d else UpdateLinkVelocity info ecm d

/-! ## Runs of the system -/

/-- One call into the system: a step hook with its update information and the
entity component manager it is handed, or a transport callback with its
message. -/
inductive Op where
  | PreUpdate (info : UpdateInfo) (ecm : EntityComponentManager)
  | PostUpdate (info : UpdateInfo) (ecm : EntityComponentManager)
  | OnCmdVel (msg : msgs.Twist)
  | OnLinkCmdVel (msg : msgs.Twist) (info : transport.MessageInfo)

/-- The effect of one call: the new private data and the `SetComponentData`
calls made (only `PreUpdate` has a mutable component manager). -/
def step (d : VelocityControlPrivate) : Op → VelocityControlPrivate × List ComponentWrite
  | Op.PreUpdate info ecm => PreUpdate info ecm d
  | Op.PostUpdate info ecm => (PostUpdate info ecm d, [])
  | Op.OnCmdVel msg => (OnCmdVel msg d, [])
  | Op.OnLinkCmdVel msg info => (OnLinkCmdVel msg info d, [])

/-- The private data after a sequence of calls. -/
def run : List Op → VelocityControlPrivate → VelocityControlPrivate
  | [], d => d
  | op :: ops, d => run ops (step d op).1

/-- The `SetComponentData` calls made by each call of a sequence. -/
def trace : List Op → VelocityControlPrivate → List (List ComponentWrite)
  | [], _ => []
  | op :: ops, d => (step d op).2 :: trace ops (step d op).1

/-- A property of (private data before the call, call) holds at every call of
a run. -/
def ForallSteps (Q : VelocityControlPrivate → Op → Prop) :
    List Op → VelocityControlPrivate → Prop
  | [], _ => True
  | op :: ops, d => Q d op ∧ ForallSteps Q ops (step d op).1

/-! ## Specification vocabulary -/

/-- The topic contains the fragment `/<name>/cmd_vel` as a substring. -/
def TopicNames (topic name : String) : Prop :=
  ("/" ++ name ++ "/cmd_vel").data <:+: topic.data

/-- The name `n` is the first of the configured names, in order, whose
fragment occurs in the topic. -/
def FirstMatch (linkNames : List String) (topic n : String) : Prop :=
  ∃ before after, linkNames = before ++ n :: after ∧
    (∀ x ∈ before, ¬ TopicNames topic x) ∧ TopicNames topic n

/-- The type invariant of the containers and the invariant of the link map:
no `std::unordered_map` holds a key twice, and only configured names are
resolved. -/
def WellFormed (d : VelocityControlPrivate) : Prop :=
  (UnorderedMap.keys d.links).Nodup ∧
  (UnorderedMap.keys d.angularVelocities).Nodup ∧
  (UnorderedMap.keys d.linearVelocities).Nodup ∧
  (UnorderedMap.keys d.linkVels).Nodup ∧
  ∀ k ∈ UnorderedMap.keys d.links, k ∈ d.linkNames

/-- The private data with the velocities of one link name forgotten. -/
def forget (n : String) (d : VelocityControlPrivate) : VelocityControlPrivate :=
  { d with
    angularVelocities := d.angularVelocities.filter (fun p => decide (p.1 ≠ n))
    linearVelocities := d.linearVelocities.filter (fun p => decide (p.1 ≠ n)) }

/-- The `SetComponentData` calls of the locked block of `PreUpdate` (the model
command): the angular command first, then the linear one. -/
def modelCmds (d : VelocityControlPrivate) : List ComponentWrite :=
  (match d.angularVelocity with
    | some v => [⟨ComponentKind.AngularVelocityCmd, d.model, v⟩]
    | none => []) ++
  (match d.linearVelocity with
    | some v => [⟨ComponentKind.LinearVelocityCmd, d.model, v⟩]
    | none => [])

/-- The link map an unpaused `PreUpdate` leaves. -/
def linksAfter (ecm : EntityComponentManager) (d : VelocityControlPrivate) :
    UnorderedMap Entity :=
  if d.linkNames.isEmpty then d.links
  else if UnorderedMap.size d.links ≠ d.linkNames.length then
    findLinks ecm d.model d.linkNames d.links
  else d.links

/-- The call is a step hook (`PreUpdate` or `PostUpdate`) of a paused step. -/
def PausedStep (op : Op) : Prop :=
  ∃ i c, (op = Op.PreUpdate i c ∨ op = Op.PostUpdate i c) ∧ i.paused = true

/-- The call is not a drain: it is not a `PostUpdate` of an unpaused step. -/
def NotDrain (op : Op) : Prop :=
  ∀ i c, op = Op.PostUpdate i c → i.paused = true

/-- The data of the last call, among a sequence of `SetComponentData` calls,
that sets the component of the given kind on the entity `e`. -/
def lastWrite (kind : ComponentKind) (e : Entity) : List ComponentWrite → Option math.Vector3d
  | [] => none
  | w :: ws =>
    match lastWrite kind e ws with
    | some v => some v
    | none => if w.kind = kind ∧ w.entity = e then some w.data else none

/-! ## Sample data -/

/-- A model entity `1` with the two configured link names `wheel` and `arm`. -/
def sampleData : VelocityControlPrivate :=
  { VelocityControlPrivate.init with model := 1, linkNames := ["wheel", "arm"] }

/-- A message with linear part `(1, 2, 3)` and angular part `(4, 5, 6)`. -/
def sampleTwist : msgs.Twist := ⟨⟨1, 2, 3⟩, ⟨4, 5, 6⟩⟩

/-- A second message, with linear part `(7, 8, 9)` and angular part `(-1, 0, 2)`. -/
def otherTwist : msgs.Twist := ⟨⟨7, 8, 9⟩, ⟨-1, 0, 2⟩⟩

/-- The topic of the link `wheel` of the model `m`. -/
def wheelTopic : transport.MessageInfo := ⟨"/model/m/link/wheel/cmd_vel"⟩

/-- A component manager in which entity `1` is the model `m`, whose link
`wheel` is entity `7` and which has no other link; no command component is
set. -/
def sampleEcm : EntityComponentManager where
  modelValid := fun e => decide (e = 1)
  modelName := fun _ => "m"
  linkByName := fun _ n => if n = "wheel" then 7 else kNullEntity
  angularVelocityCmd := fun _ => none
  linearVelocityCmd := fun _ => none

/-- The same component manager before the link `wheel` exists. -/
def emptyEcm : EntityComponentManager where
  modelValid := fun e => decide (e = 1)
  modelName := fun _ => "m"
  linkByName := fun _ _ => kNullEntity
  angularVelocityCmd := fun _ => none
  linearVelocityCmd := fun _ => none

/-- The private data configured as in the end-to-end example: model entity `1`,
initial linear velocity `(1, 0, 0)` with `persistent="false"`, one link name
`wheel`. -/
def oneShotData : VelocityControlPrivate :=
  Configure (fun t => t) 1
    ⟨some ⟨⟨1, 0, 0⟩, some false⟩, some ⟨⟨0, 0, 2⟩, some false⟩, none, ["wheel"]⟩
    sampleEcm VelocityControlPrivate.init

/-- The private data after a message for `wheel` has been drained, no link
being resolved yet. -/
def wheelCommanded : VelocityControlPrivate :=
  PostUpdate ⟨1000000, false⟩ emptyEcm (OnLinkCmdVel sampleTwist wheelTopic sampleData)

/-- Three unpaused `PreUpdate` calls while the link `wheel` does not exist. -/
def retryOps : List Op :=
  [Op.PreUpdate ⟨1000000, false⟩ emptyEcm, Op.PreUpdate ⟨1000000, false⟩ emptyEcm,
    Op.PreUpdate ⟨1000000, false⟩ emptyEcm]

/-- A `PostUpdate` and a further `PreUpdate` once the link `wheel` exists. -/
def laterOps : List Op :=
  [Op.PostUpdate ⟨1000000, false⟩ sampleEcm, Op.PreUpdate ⟨1000000, false⟩ sampleEcm]

/-- The scene description of the end-to-end example. -/
def sampleSdf : sdf.Element :=
  ⟨some ⟨⟨1, 0, 0⟩, some false⟩, some ⟨⟨0, 0, 2⟩, some false⟩, none, ["wheel"]⟩

/-- The `SetComponentData` calls each call makes once `Configure` has failed
on `entity`: an unpaused `PreUpdate` writes the zero vector to both command
components of the entity, every other call writes nothing. -/
def writesAfterFailedConfigure (entity : Entity) : Op → List ComponentWrite
  | Op.PreUpdate i _ =>
    if i.paused then []
    else [⟨ComponentKind.AngularVelocityCmd, entity, math.Vector3d.Zero⟩,
      ⟨ComponentKind.LinearVelocityCmd, entity, math.Vector3d.Zero⟩]
  | _ => []

/-- The call is a step hook, `PreUpdate` or `PostUpdate`. -/
def StepHook (op : Op) : Prop :=
  ∃ i c, op = Op.PreUpdate i c ∨ op = Op.PostUpdate i c

/-- A component manager in which the link `wheel` of the model has become
entity `9`. -/
def movedEcm : EntityComponentManager where
  modelValid := fun e => decide (e = 1)
  modelName := fun _ => "m"
  linkByName := fun _ n => if n = "wheel" then 9 else kNullEntity
  angularVelocityCmd := fun _ => none
  linearVelocityCmd := fun _ => none

/-- Later calls in which the lookup of `wheel` first fails and then returns
another handle, with a command and a drain in between. -/
def changingOps : List Op :=
  [Op.PreUpdate ⟨1000000, false⟩ emptyEcm, Op.OnLinkCmdVel otherTwist wheelTopic,
    Op.PostUpdate ⟨1000000, false⟩ emptyEcm, Op.OnCmdVel sampleTwist,
    Op.PreUpdate ⟨1000000, false⟩ movedEcm]

/-- An unpaused step of one millisecond. -/
def unpausedStep : UpdateInfo := ⟨1000000, false⟩

/-- A paused step with a negative time delta. -/
def pausedStep : UpdateInfo := ⟨-5, true⟩

/-! ## Lemmas on `std::string::find` -/

theorem findFrom_isSome (needle : List Char) :
    ∀ (hay : List Char) (pos : Nat),
      (findFrom needle hay pos).isSome = true ↔ needle <:+: hay := by
  intro hay
  induction hay with
  | nil =>
    intro pos
    cases needle with
    | nil => simp [findFrom]
    | cons a as => simp [findFrom, List.isPrefixOf]
  | cons c rest ih =>
    intro pos
    unfold findFrom
    by_cases hp : needle.isPrefixOf (c :: rest) = true
    · rw [if_pos hp]
      have hpre : needle <+: c :: rest := List.isPrefixOf_iff_prefix.mp hp
      simpa using hpre.isInfix
    · rw [if_neg hp, ih (pos + 1)]
      have hnp : ¬ needle <+: c :: rest := fun h => hp (List.isPrefixOf_iff_prefix.mpr h)
      rw [List.infix_cons_iff]
      constructor
      · intro h; exact Or.inr h
      · rintro (h | h)
        · exact absurd h hnp
        · exact h

theorem stdFind_isSome (topic name : String) :
    (stdFind topic ("/" ++ name ++ "/cmd_vel")).isSome = true ↔ TopicNames topic name := by
  unfold stdFind TopicNames
  exact findFrom_isSome _ _ _

/-! ## Lemmas on `std::unordered_map` -/

namespace UnorderedMap

variable {β : Type}

theorem find_eq_none_iff (m : UnorderedMap β) (k : String) :
    find m k = none ↔ k ∉ keys m := by
  induction m with
  | nil => simp [find, keys]
  | cons p rest ih =>
    obtain ⟨k', v⟩ := p
    by_cases h : k' = k
    · simp [find, keys, h]
    · have h' : ¬ k = k' := fun e => h e.symm
      simp only [keys] at ih
      simp [find, keys, h, h', ih]

theorem find_append (m m' : UnorderedMap β) (k : String) :
    find (m ++ m') k = (find m k).orElse (fun _ => find m' k) := by
  induction m with
  | nil => simp [find]
  | cons p rest ih =>
    obtain ⟨k', v⟩ := p
    by_cases h : k' = k
    · simp [find, h]
    · simp [find, h, ih]

theorem insert_of_find_some {m : UnorderedMap β} {k : String} {w : β} (v : β)
    (h : find m k = some w) : insert m k v = m := by
  simp [insert, h]

theorem insert_of_find_none {m : UnorderedMap β} {k : String} (v : β)
    (h : find m k = none) : insert m k v = m ++ [(k, v)] := by
  simp [insert, h]

theorem find_insert_self {m : UnorderedMap β} {k : String} (v : β)
    (h : find m k = none) : find (insert m k v) k = some v := by
  rw [insert_of_find_none v h, find_append, h]
  simp [find]

theorem find_insert_ne (m : UnorderedMap β) {k k' : String} (v : β)
    (h : k ≠ k') : find (insert m k v) k' = find m k' := by
  cases hk : find m k with
  | some w => rw [insert_of_find_some v hk]
  | none =>
    rw [insert_of_find_none v hk, find_append]
    cases find m k' <;> simp [find, h]

theorem find_insert_of_some (m : UnorderedMap β) (k : String) (v : β) {k' : String} {w : β}
    (h : find m k' = some w) : find (insert m k v) k' = some w := by
  cases hk : find m k with
  | some u => rw [insert_of_find_some v hk, h]
  | none =>
    rw [insert_of_find_none v hk, find_append, h]
    rfl

theorem keys_insert_nodup (m : UnorderedMap β) (k : String) (v : β)
    (h : (keys m).Nodup) : (keys (insert m k v)).Nodup := by
  cases hk : find m k with
  | some w => rw [insert_of_find_some v hk]; exact h
  | none =>
    rw [insert_of_find_none v hk]
    have hnot : k ∉ keys m := (find_eq_none_iff m k).mp hk
    simp only [keys, List.map_append, List.map_cons, List.map_nil] at *
    rw [List.nodup_append]
    refine ⟨h, List.nodup_singleton _, ?_⟩
    intro a ha hb
    rw [List.mem_singleton] at hb
    exact hnot (hb ▸ ha)

theorem mem_keys_insert (m : UnorderedMap β) (k : String) (v : β) (x : String)
    (h : x ∈ keys (insert m k v)) : x ∈ keys m ∨ x = k := by
  cases hk : find m k with
  | some w => rw [insert_of_find_some v hk] at h; exact Or.inl h
  | none =>
    rw [insert_of_find_none v hk] at h
    simp only [keys, List.map_append, List.map_cons, List.map_nil, List.mem_append,
      List.mem_singleton] at h
    exact h

theorem find_assign (m : UnorderedMap β) (k : String) (v : β) (k' : String) :
    find (assign m k v) k' = if k = k' then some v else find m k' := by
  induction m with
  | nil => simp [assign, find]
  | cons p rest ih =>
    obtain ⟨k0, v0⟩ := p
    by_cases h0 : k0 = k
    · subst h0
      by_cases h1 : k0 = k' <;> simp [assign, find, h1]
    · by_cases h1 : k0 = k'
      · subst h1
        have : ¬ k = k0 := fun e => h0 e.symm
        simp [assign, find, h0, this]
      · simp [assign, find, h0, h1, ih]

theorem keys_assign (m : UnorderedMap β) (k : String) (v : β) :
    keys (assign m k v) = if k ∈ keys m then keys m else keys m ++ [k] := by
  induction m with
  | nil => simp [assign, keys]
  | cons p rest ih =>
    obtain ⟨k0, v0⟩ := p
    simp only [keys] at ih
    by_cases h0 : k0 = k
    · subst h0
      simp [assign, keys]
    · have h0' : ¬ k = k0 := fun e => h0 e.symm
      by_cases hm : ∃ b, (k, b) ∈ rest
      · have := ih
        simp only [List.mem_map, Prod.exists, exists_and_right, exists_eq_right] at this
        simp [assign, keys, h0, h0', hm, this]
      · have := ih
        simp only [List.mem_map, Prod.exists, exists_and_right, exists_eq_right] at this
        simp [assign, keys, h0, h0', hm, this]

theorem keys_assign_nodup (m : UnorderedMap β) (k : String) (v : β)
    (h : (keys m).Nodup) : (keys (assign m k v)).Nodup := by
  rw [keys_assign]
  by_cases hk : k ∈ keys m
  · rw [if_pos hk]; exact h
  · rw [if_neg hk, List.nodup_append]
    refine ⟨h, List.nodup_singleton _, ?_⟩
    intro a ha hb
    rw [List.mem_singleton] at hb
    exact hk (hb ▸ ha)

end UnorderedMap

/-! ## Lemmas on the callbacks and on the drain -/

theorem insertPending_no_match (msg : msgs.Twist) (topic : String) :
    ∀ (names : List String) (linkVels : UnorderedMap msgs.Twist),
      (∀ x ∈ names, ¬ TopicNames topic x) →
      insertPending msg topic names linkVels = linkVels := by
  intro names
  induction names with
  | nil => intro linkVels _; rfl
  | cons a rest ih =>
    intro linkVels h
    have ha : ¬ (stdFind topic ("/" ++ a ++ "/cmd_vel")).isSome = true := fun hs =>
      h a (List.mem_cons_self a rest) ((stdFind_isSome topic a).mp hs)
    unfold insertPending
    rw [if_neg ha]
    exact ih linkVels (fun x hx => h x (List.mem_cons_of_mem a hx))

theorem insertPending_first_match (msg : msgs.Twist) (topic n : String)
    (after : List String) (hn : TopicNames topic n) :
    ∀ (before : List String) (linkVels : UnorderedMap msgs.Twist),
      (∀ x ∈ before, ¬ TopicNames topic x) →
      insertPending msg topic (before ++ n :: after) linkVels
        = UnorderedMap.insert linkVels n msg := by
  intro before
  induction before with
  | nil =>
    intro linkVels _
    have hs : (stdFind topic ("/" ++ n ++ "/cmd_vel")).isSome = true :=
      (stdFind_isSome topic n).mpr hn
    simp only [List.nil_append]
    unfold insertPending
    rw [if_pos hs]
  | cons a rest ih =>
    intro linkVels h
    have ha : ¬ (stdFind topic ("/" ++ a ++ "/cmd_vel")).isSome = true := fun hs =>
      h a (List.mem_cons_self a rest) ((stdFind_isSome topic a).mp hs)
    simp only [List.cons_append]
    unfold insertPending
    rw [if_neg ha]
    exact ih linkVels (fun x hx => h x (List.mem_cons_of_mem a hx))

theorem OnLinkCmdVel_first_match (msg : msgs.Twist) (info : transport.MessageInfo)
    (d : VelocityControlPrivate) (n : String) (h : FirstMatch d.linkNames info.Topic n) :
    OnLinkCmdVel msg info d = { d with linkVels := UnorderedMap.insert d.linkVels n msg } := by
  obtain ⟨before, after, hsplit, hbefore, hn⟩ := h
  unfold OnLinkCmdVel
  rw [hsplit, insertPending_first_match msg info.Topic n after hn before d.linkVels hbefore]

theorem drain_model (l : UnorderedMap msgs.Twist) :
    ∀ d : VelocityControlPrivate,
      (drain l d).node = d.node ∧ (drain l d).model = d.model ∧
      (drain l d).angularVelocity = d.angularVelocity ∧
      (drain l d).persistentAngularVelocity = d.persistentAngularVelocity ∧
      (drain l d).linearVelocity = d.linearVelocity ∧
      (drain l d).persistentLinearVelocity = d.persistentLinearVelocity ∧
      (drain l d).linkNames = d.linkNames ∧ (drain l d).links = d.links ∧
      (drain l d).linkVels = d.linkVels := by
  induction l with
  | nil => intro d; simp [drain]
  | cons p rest ih =>
    intro d
    obtain ⟨k, m⟩ := p
    simpa [drain] using ih _

theorem drain_append (l l' : UnorderedMap msgs.Twist) :
    ∀ d : VelocityControlPrivate, drain (l ++ l') d = drain l' (drain l d) := by
  induction l with
  | nil => intro d; rfl
  | cons p rest ih =>
    intro d
    obtain ⟨k, m⟩ := p
    simp only [List.cons_append, drain]
    exact ih _

theorem drain_find (l : UnorderedMap msgs.Twist) (hl : (UnorderedMap.keys l).Nodup) :
    ∀ (d : VelocityControlPrivate) (k : String),
      UnorderedMap.find (drain l d).linearVelocities k
          = (match UnorderedMap.find l k with
            | some m => some (msgs.Convert m.linear)
            | none => UnorderedMap.find d.linearVelocities k) ∧
      UnorderedMap.find (drain l d).angularVelocities k
          = (match UnorderedMap.find l k with
            | some m => some (msgs.Convert m.angular)
            | none => UnorderedMap.find d.angularVelocities k) := by
  induction l with
  | nil => intro d k; simp [drain, UnorderedMap.find]
  | cons p rest ih =>
    intro d k
    obtain ⟨k0, m0⟩ := p
    have hnd : k0 ∉ UnorderedMap.keys rest ∧ (UnorderedMap.keys rest).Nodup := by
      simpa [UnorderedMap.keys] using hl
    have hrest := ih hnd.2
    simp only [drain]
    by_cases hk : k0 = k
    · subst hk
      have hnone : UnorderedMap.find rest k0 = none :=
        (UnorderedMap.find_eq_none_iff rest k0).mpr hnd.1
      have := hrest
        { d with
          linearVelocities :=
            UnorderedMap.assign d.linearVelocities k0 (msgs.Convert m0.linear)
          angularVelocities :=
            UnorderedMap.assign d.angularVelocities k0 (msgs.Convert m0.angular) } k0
      simpa [hnone, UnorderedMap.find, UnorderedMap.find_assign] using this
    · have := hrest
        { d with
          linearVelocities :=
            UnorderedMap.assign d.linearVelocities k0 (msgs.Convert m0.linear)
          angularVelocities :=
            UnorderedMap.assign d.angularVelocities k0 (msgs.Convert m0.angular) } k
      simpa [UnorderedMap.find, UnorderedMap.find_assign, hk] using this

theorem drain_keys_nodup (l : UnorderedMap msgs.Twist) :
    ∀ d : VelocityControlPrivate,
      (UnorderedMap.keys d.linearVelocities).Nodup →
      (UnorderedMap.keys d.angularVelocities).Nodup →
      (UnorderedMap.keys (drain l d).linearVelocities).Nodup ∧
      (UnorderedMap.keys (drain l d).angularVelocities).Nodup := by
  induction l with
  | nil => intro d h1 h2; exact ⟨h1, h2⟩
  | cons p rest ih =>
    intro d h1 h2
    obtain ⟨k0, m0⟩ := p
    simp only [drain]
    exact ih _ (UnorderedMap.keys_assign_nodup _ _ _ h1)
      (UnorderedMap.keys_assign_nodup _ _ _ h2)

/-! ## Lemmas on `PreUpdate` -/

theorem PreUpdate_paused (info : UpdateInfo) (ecm : EntityComponentManager)
    (d : VelocityControlPrivate) (hp : info.paused = true) :
    PreUpdate info ecm d = (d, []) := by
  simp [PreUpdate, hp]

theorem PreUpdate_unpaused (info : UpdateInfo) (ecm : EntityComponentManager)
    (d : VelocityControlPrivate) (hp : info.paused = false) :
    PreUpdate info ecm d =
      ({ d with
          angularVelocity := if d.persistentAngularVelocity then d.angularVelocity else none
          linearVelocity := if d.persistentLinearVelocity then d.linearVelocity else none
          links := linksAfter ecm d },
        modelCmds d ++
          (if d.linkNames.isEmpty then []
           else linkCmds ComponentKind.AngularVelocityCmd (linksAfter ecm d) d.angularVelocities
            ++ linkCmds ComponentKind.LinearVelocityCmd (linksAfter ecm d)
                d.linearVelocities)) := by
  obtain ⟨node, model, av, pa, lv, pl, names, links, avs, lvs, pend⟩ := d
  cases av <;> cases lv <;> cases pa <;> cases pl <;>
    by_cases hn : names.isEmpty = true <;>
    by_cases hs : UnorderedMap.size links ≠ names.length <;>
    simp [PreUpdate, hp, modelCmds, linksAfter, hn, hs]

/-! ## Lemmas on the component store -/

theorem component_SetComponentData (ecm : EntityComponentManager) (w : ComponentWrite)
    (kind : ComponentKind) (e : Entity) :
    (ecm.SetComponentData w).component kind e
      = if w.kind = kind ∧ w.entity = e then some w.data else ecm.component kind e := by
  obtain ⟨wk, we, wd⟩ := w
  have hsymm : (e = we) = (we = e) := propext ⟨Eq.symm, Eq.symm⟩
  cases wk <;> cases kind <;>
    by_cases h : we = e <;>
    simp [EntityComponentManager.SetComponentData, EntityComponentManager.component, h, hsymm]

theorem component_applyWrites (ws : List ComponentWrite) (kind : ComponentKind) (e : Entity) :
    ∀ ecm : EntityComponentManager,
      (ecm.applyWrites ws).component kind e
        = (lastWrite kind e ws).orElse (fun _ => ecm.component kind e) := by
  induction ws with
  | nil => intro ecm; rfl
  | cons w ws ih =>
    intro ecm
    have hstep : ecm.applyWrites (w :: ws) = (ecm.SetComponentData w).applyWrites ws := rfl
    rw [hstep, ih, component_SetComponentData]
    cases hl : lastWrite kind e ws with
    | some v => simp [lastWrite, hl]
    | none =>
      by_cases hw : w.kind = kind ∧ w.entity = e
      · simp [lastWrite, hl, hw]
      · simp [lastWrite, hl, hw]

theorem lastWrite_append (kind : ComponentKind) (e : Entity) (a b : List ComponentWrite) :
    lastWrite kind e (a ++ b) = (lastWrite kind e b).orElse (fun _ => lastWrite kind e a) := by
  induction a with
  | nil =>
    rw [List.nil_append]
    cases lastWrite kind e b <;> rfl
  | cons w ws ih =>
    have hcons : ∀ l : List ComponentWrite,
        lastWrite kind e (w :: l)
          = (match lastWrite kind e l with
            | some v => some v
            | none => if w.kind = kind ∧ w.entity = e then some w.data else none) :=
      fun _ => rfl
    rw [List.cons_append, hcons, hcons, ih]
    cases lastWrite kind e b <;> rfl

theorem lastWrite_eq_none (kind : ComponentKind) (e : Entity) (ws : List ComponentWrite)
    (h : ∀ w ∈ ws, ¬ (w.kind = kind ∧ w.entity = e)) : lastWrite kind e ws = none := by
  induction ws with
  | nil => rfl
  | cons w ws ih =>
    have hw := h w (List.mem_cons_self w ws)
    have hrest := ih (fun x hx => h x (List.mem_cons_of_mem w hx))
    simp [lastWrite, hrest, hw]

/-! ## Lemmas on the link loops of `PreUpdate` -/

theorem find_findLinks (ecm : EntityComponentManager) (model : Entity) (k : String) :
    ∀ (names : List String) (links : UnorderedMap Entity),
      UnorderedMap.find (findLinks ecm model names links) k
        = (match UnorderedMap.find links k with
          | some x => some x
          | none =>
            if k ∈ names ∧ ecm.linkByName model k ≠ kNullEntity
            then some (ecm.linkByName model k) else none) := by
  intro names
  induction names with
  | nil =>
    intro links
    cases h : UnorderedMap.find links k <;> simp [findLinks, h]
  | cons a rest ih =>
    intro links
    unfold findLinks
    cases ha : UnorderedMap.find links a with
    | some x =>
      simp only []
      rw [ih links]
      cases hk : UnorderedMap.find links k with
      | some y => rfl
      | none =>
        have hne : k ≠ a := by
          intro e
          rw [e, ha] at hk
          exact Option.noConfusion hk
        simp [hne]
    | none =>
      simp only []
      by_cases hl : ecm.linkByName model a ≠ kNullEntity
      · rw [if_pos hl, ih]
        by_cases hka : a = k
        · subst hka
          rw [UnorderedMap.find_insert_self _ ha, ha]
          simp [hl]
        · have hka' : k ≠ a := fun e => hka e.symm
          rw [UnorderedMap.find_insert_ne links _ hka]
          cases UnorderedMap.find links k <;> simp [hka']
      · rw [if_neg hl, ih]
        cases hk : UnorderedMap.find links k with
        | some y => rfl
        | none =>
          by_cases hka : k = a
          · subst hka
            have hl' : ecm.linkByName model k = kNullEntity := not_not.mp hl
            simp [hl']
          · simp [hka]

theorem findLinks_keys (ecm : EntityComponentManager) (model : Entity) :
    ∀ (names : List String) (links : UnorderedMap Entity),
      (UnorderedMap.keys links).Nodup →
      (UnorderedMap.keys (findLinks ecm model names links)).Nodup ∧
      ∀ x ∈ UnorderedMap.keys (findLinks ecm model names links),
        x ∈ UnorderedMap.keys links ∨ x ∈ names := by
  intro names
  induction names with
  | nil => intro links h; exact ⟨h, fun x hx => Or.inl hx⟩
  | cons a rest ih =>
    intro links h
    unfold findLinks
    cases ha : UnorderedMap.find links a with
    | some x =>
      simp only []
      refine ⟨(ih links h).1, fun x hx => ?_⟩
      rcases (ih links h).2 x hx with h1 | h1
      · exact Or.inl h1
      · exact Or.inr (List.mem_cons_of_mem a h1)
    | none =>
      simp only []
      by_cases hl : ecm.linkByName model a ≠ kNullEntity
      · rw [if_pos hl]
        have hins := UnorderedMap.keys_insert_nodup links a (ecm.linkByName model a) h
        refine ⟨(ih _ hins).1, fun x hx => ?_⟩
        rcases (ih _ hins).2 x hx with h1 | h1
        · rcases UnorderedMap.mem_keys_insert links a _ x h1 with h2 | h2
          · exact Or.inl h2
          · exact Or.inr (h2 ▸ List.mem_cons_self a rest)
        · exact Or.inr (List.mem_cons_of_mem a h1)
      · rw [if_neg hl]
        refine ⟨(ih links h).1, fun x hx => ?_⟩
        rcases (ih links h).2 x hx with h1 | h1
        · exact Or.inl h1
        · exact Or.inr (List.mem_cons_of_mem a h1)

theorem size_ne_of_unresolved (names : List String) (links : UnorderedMap Entity)
    (n : String) (hnodup : (UnorderedMap.keys links).Nodup)
    (hsub : ∀ k ∈ UnorderedMap.keys links, k ∈ names) (hn : n ∈ names)
    (hunres : UnorderedMap.find links n = none) :
    UnorderedMap.size links ≠ names.length := by
  have hnot : n ∉ UnorderedMap.keys links := (UnorderedMap.find_eq_none_iff links n).mp hunres
  have hsub' : UnorderedMap.keys links ⊆ names.erase n := by
    intro k hk
    have hkn : k ≠ n := fun e => hnot (e ▸ hk)
    exact (List.mem_erase_of_ne hkn).mpr (hsub k hk)
  have hle : (UnorderedMap.keys links).length ≤ (names.erase n).length :=
    (List.subperm_of_subset hnodup hsub').length_le
  have hlen : (names.erase n).length = names.length - 1 := List.length_erase_of_mem hn
  have hpos : 0 < names.length := List.length_pos_of_mem hn
  have hkeys : (UnorderedMap.keys links).length = links.length := by
    simp [UnorderedMap.keys]
  unfold UnorderedMap.size
  omega

theorem linkCmds_entity (kind : ComponentKind) (links : UnorderedMap Entity) (e : Entity)
    (h : ∀ n, UnorderedMap.find links n ≠ some e) :
    ∀ (vels : UnorderedMap math.Vector3d), ∀ w ∈ linkCmds kind links vels, w.entity ≠ e := by
  intro vels
  induction vels with
  | nil => intro w hw; simp [linkCmds] at hw
  | cons p rest ih =>
    obtain ⟨k, u⟩ := p
    intro w hw
    unfold linkCmds at hw
    cases hk : UnorderedMap.find links k with
    | some x =>
      rw [hk] at hw
      simp only [List.mem_cons] at hw
      rcases hw with hw | hw
      · rw [hw]
        intro hx
        exact h k (by rw [hk]; exact congrArg some hx)
      · exact ih w hw
    | none =>
      rw [hk] at hw
      exact ih w hw

theorem linkCmds_kind (kind : ComponentKind) (links : UnorderedMap Entity) :
    ∀ (vels : UnorderedMap math.Vector3d), ∀ w ∈ linkCmds kind links vels, w.kind = kind := by
  intro vels
  induction vels with
  | nil => intro w hw; simp [linkCmds] at hw
  | cons p rest ih =>
    obtain ⟨k, u⟩ := p
    intro w hw
    unfold linkCmds at hw
    cases hk : UnorderedMap.find links k with
    | some x =>
      rw [hk] at hw
      simp only [List.mem_cons] at hw
      rcases hw with hw | hw
      · rw [hw]
      · exact ih w hw
    | none =>
      rw [hk] at hw
      exact ih w hw

theorem linkCmds_forget (kind : ComponentKind) (links : UnorderedMap Entity) (n : String)
    (h : UnorderedMap.find links n = none) :
    ∀ (vels : UnorderedMap math.Vector3d),
      linkCmds kind links vels
        = linkCmds kind links (vels.filter (fun p => decide (p.1 ≠ n))) := by
  intro vels
  induction vels with
  | nil => rfl
  | cons p rest ih =>
    obtain ⟨k, u⟩ := p
    by_cases hk : k = n
    · subst hk
      simp [linkCmds, h, ih]
    · have hfilter :
          List.filter (fun p : String × math.Vector3d => decide (p.1 ≠ n)) ((k, u) :: rest)
            = (k, u) :: List.filter (fun p => decide (p.1 ≠ n)) rest := by
        simp [List.filter, hk]
      rw [hfilter]
      unfold linkCmds
      rw [← ih]

theorem linksAfter_ne (ecm : EntityComponentManager) (d : VelocityControlPrivate) (e : Entity)
    (hlinks : ∀ n, UnorderedMap.find d.links n ≠ some e)
    (hecm : ∀ n, ecm.linkByName d.model n ≠ e) :
    ∀ n, UnorderedMap.find (linksAfter ecm d) n ≠ some e := by
  intro n
  unfold linksAfter
  by_cases h1 : d.linkNames.isEmpty = true
  · rw [if_pos h1]; exact hlinks n
  · rw [if_neg h1]
    by_cases h2 : UnorderedMap.size d.links ≠ d.linkNames.length
    · rw [if_pos h2, find_findLinks]
      cases hk : UnorderedMap.find d.links n with
      | some x =>
        intro hx
        exact hlinks n (by rw [hk]; exact hx)
      | none =>
        simp only []
        by_cases h3 : n ∈ d.linkNames ∧ ecm.linkByName d.model n ≠ kNullEntity
        · rw [if_pos h3]
          intro hx
          exact hecm n (Option.some.inj hx)
        · rw [if_neg h3]
          exact fun hx => Option.noConfusion hx
    · rw [if_neg h2]; exact hlinks n

theorem lastWrite_modelCmds (kind : ComponentKind) (d : VelocityControlPrivate) :
    lastWrite kind d.model (modelCmds d)
      = (match kind with
        | ComponentKind.AngularVelocityCmd => d.angularVelocity
        | ComponentKind.LinearVelocityCmd => d.linearVelocity) := by
  obtain ⟨node, model, av, pa, lv, pl, names, links, avs, lvs, pend⟩ := d
  cases av <;> cases lv <;> cases kind <;> simp [modelCmds, lastWrite]

theorem lastWrite_model (kind : ComponentKind) (info : UpdateInfo)
    (ecm : EntityComponentManager) (d : VelocityControlPrivate) (hp : info.paused = false)
    (hlinks : ∀ n, UnorderedMap.find d.links n ≠ some d.model)
    (hecm : ∀ n, ecm.linkByName d.model n ≠ d.model) :
    lastWrite kind d.model (PreUpdate info ecm d).2
      = (match kind with
        | ComponentKind.AngularVelocityCmd => d.angularVelocity
        | ComponentKind.LinearVelocityCmd => d.linearVelocity) := by
  rw [PreUpdate_unpaused info ecm d hp]
  simp only []
  rw [lastWrite_append, lastWrite_modelCmds]
  have hne := linksAfter_ne ecm d d.model hlinks hecm
  have hnone : lastWrite kind d.model
      (if d.linkNames.isEmpty then []
       else linkCmds ComponentKind.AngularVelocityCmd (linksAfter ecm d) d.angularVelocities
        ++ linkCmds ComponentKind.LinearVelocityCmd (linksAfter ecm d) d.linearVelocities)
      = none := by
    apply lastWrite_eq_none
    intro w hw hcontra
    by_cases h1 : d.linkNames.isEmpty = true
    · rw [if_pos h1] at hw
      exact absurd hw (List.not_mem_nil w)
    · rw [if_neg h1, List.mem_append] at hw
      rcases hw with hw | hw
      · exact linkCmds_entity _ _ d.model hne _ w hw hcontra.2
      · exact linkCmds_entity _ _ d.model hne _ w hw hcontra.2
  rw [hnone]
  rfl

theorem mem_writes_model (info : UpdateInfo) (ecm : EntityComponentManager)
    (d : VelocityControlPrivate) (hp : info.paused = false)
    (hlinks : ∀ n, UnorderedMap.find d.links n ≠ some d.model)
    (hecm : ∀ n, ecm.linkByName d.model n ≠ d.model) :
    ∀ w ∈ (PreUpdate info ecm d).2, w.entity = d.model → w ∈ modelCmds d := by
  intro w hw hent
  rw [PreUpdate_unpaused info ecm d hp] at hw
  simp only [List.mem_append] at hw
  have hne := linksAfter_ne ecm d d.model hlinks hecm
  rcases hw with hw | hw
  · exact hw
  · by_cases h1 : d.linkNames.isEmpty = true
    · rw [if_pos h1] at hw
      exact absurd hw (List.not_mem_nil w)
    · rw [if_neg h1, List.mem_append] at hw
      rcases hw with hw | hw
      · exact absurd hent (linkCmds_entity _ _ d.model hne _ w hw)
      · exact absurd hent (linkCmds_entity _ _ d.model hne _ w hw)

theorem linksAfter_find (ecm : EntityComponentManager) (d : VelocityControlPrivate)
    (hwf : WellFormed d) (k : String) :
    UnorderedMap.find (linksAfter ecm d) k
      = (match UnorderedMap.find d.links k with
        | some x => some x
        | none =>
          if k ∈ d.linkNames ∧ ecm.linkByName d.model k ≠ kNullEntity
          then some (ecm.linkByName d.model k) else none) := by
  obtain ⟨hnodup, _, _, _, hsub⟩ := hwf
  have hclosed : UnorderedMap.find d.links k = none →
      (d.linkNames.isEmpty = true ∨ ¬ UnorderedMap.size d.links ≠ d.linkNames.length) →
      k ∉ d.linkNames := by
    intro hk hor hmem
    rcases hor with h | h
    · rw [List.isEmpty_iff] at h
      rw [h] at hmem
      exact absurd hmem (List.not_mem_nil k)
    · exact h (size_ne_of_unresolved d.linkNames d.links k hnodup hsub hmem hk)
  unfold linksAfter
  by_cases h1 : d.linkNames.isEmpty = true
  · rw [if_pos h1]
    cases hk : UnorderedMap.find d.links k with
    | some x => rfl
    | none =>
      have := hclosed hk (Or.inl h1)
      simp [this]
  · rw [if_neg h1]
    by_cases h2 : UnorderedMap.size d.links ≠ d.linkNames.length
    · rw [if_pos h2, find_findLinks]
    · rw [if_neg h2]
      cases hk : UnorderedMap.find d.links k with
      | some x => rfl
      | none =>
        have := hclosed hk (Or.inr h2)
        simp [this]

theorem linksAfter_keys (ecm : EntityComponentManager) (d : VelocityControlPrivate)
    (hnodup : (UnorderedMap.keys d.links).Nodup)
    (hsub : ∀ k ∈ UnorderedMap.keys d.links, k ∈ d.linkNames) :
    (UnorderedMap.keys (linksAfter ecm d)).Nodup ∧
    ∀ k ∈ UnorderedMap.keys (linksAfter ecm d), k ∈ d.linkNames := by
  unfold linksAfter
  by_cases h1 : d.linkNames.isEmpty = true
  · rw [if_pos h1]; exact ⟨hnodup, hsub⟩
  · rw [if_neg h1]
    by_cases h2 : UnorderedMap.size d.links ≠ d.linkNames.length
    · rw [if_pos h2]
      have h := findLinks_keys ecm d.model d.linkNames d.links hnodup
      refine ⟨h.1, fun k hk => ?_⟩
      rcases h.2 k hk with h3 | h3
      · exact hsub k h3
      · exact h3
    · rw [if_neg h2]; exact ⟨hnodup, hsub⟩

theorem insertPending_keys (msg : msgs.Twist) (topic : String) :
    ∀ (names : List String) (linkVels : UnorderedMap msgs.Twist),
      (UnorderedMap.keys linkVels).Nodup →
      (UnorderedMap.keys (insertPending msg topic names linkVels)).Nodup := by
  intro names
  induction names with
  | nil => intro linkVels h; exact h
  | cons a rest ih =>
    intro linkVels h
    unfold insertPending
    by_cases ha : (stdFind topic ("/" ++ a ++ "/cmd_vel")).isSome = true
    · rw [if_pos ha]; exact UnorderedMap.keys_insert_nodup linkVels a msg h
    · rw [if_neg ha]; exact ih linkVels h

theorem step_frame (d : VelocityControlPrivate) (op : Op) :
    (step d op).1.model = d.model ∧ (step d op).1.linkNames = d.linkNames ∧
    (step d op).1.node = d.node := by
  cases op with
  | PreUpdate i c =>
    cases hp : i.paused with
    | true => simp only [step]; rw [PreUpdate_paused i c d hp]; exact ⟨rfl, rfl, rfl⟩
    | false => simp only [step]; rw [PreUpdate_unpaused i c d hp]; exact ⟨rfl, rfl, rfl⟩
  | PostUpdate i c =>
    cases hp : i.paused with
    | true => simp [step, PostUpdate, hp]
    | false =>
      have hdm := drain_model d.linkVels d
      simp only [step, PostUpdate, hp, UpdateLinkVelocity, Bool.false_eq_true, if_false]
      exact ⟨hdm.2.1, hdm.2.2.2.2.2.2.1, hdm.1⟩
  | OnCmdVel msg => exact ⟨rfl, rfl, rfl⟩
  | OnLinkCmdVel msg mi => exact ⟨rfl, rfl, rfl⟩

theorem step_links (d : VelocityControlPrivate) (op : Op)
    (hop : ∀ i c, op = Op.PreUpdate i c → i.paused = true) :
    (step d op).1.links = d.links := by
  cases op with
  | PreUpdate i c =>
    simp only [step]; rw [PreUpdate_paused i c d (hop i c rfl)]
  | PostUpdate i c =>
    cases hp : i.paused with
    | true => simp only [step, PostUpdate, hp, if_true]
    | false =>
      have hdm := drain_model d.linkVels d
      simp only [step, PostUpdate, hp, UpdateLinkVelocity, Bool.false_eq_true, if_false]
      exact hdm.2.2.2.2.2.2.2.1
  | OnCmdVel msg => rfl
  | OnLinkCmdVel msg mi => rfl

theorem wellFormed_step (d : VelocityControlPrivate) (op : Op) (hwf : WellFormed d) :
    WellFormed (step d op).1 := by
  obtain ⟨h1, h2, h3, h4, h5⟩ := hwf
  cases op with
  | PreUpdate i c =>
    cases hp : i.paused with
    | true => simp only [step]; rw [PreUpdate_paused i c d hp]; exact ⟨h1, h2, h3, h4, h5⟩
    | false =>
      simp only [step]
      rw [PreUpdate_unpaused i c d hp]
      have hk := linksAfter_keys c d h1 h5
      exact ⟨hk.1, h2, h3, h4, hk.2⟩
  | PostUpdate i c =>
    cases hp : i.paused with
    | true => simp only [step, PostUpdate, hp, if_true]; exact ⟨h1, h2, h3, h4, h5⟩
    | false =>
      have hdm := drain_model d.linkVels d
      have hdk := drain_keys_nodup d.linkVels d h3 h2
      simp only [step, PostUpdate, hp, UpdateLinkVelocity, Bool.false_eq_true, if_false]
      refine ⟨?_, hdk.2, hdk.1, List.nodup_nil, ?_⟩
      · show (UnorderedMap.keys (drain d.linkVels d).links).Nodup
        rw [hdm.2.2.2.2.2.2.2.1]; exact h1
      · show ∀ k ∈ UnorderedMap.keys (drain d.linkVels d).links,
          k ∈ (drain d.linkVels d).linkNames
        rw [hdm.2.2.2.2.2.2.2.1, hdm.2.2.2.2.2.2.1]; exact h5
  | OnCmdVel msg => exact ⟨h1, h2, h3, h4, h5⟩
  | OnLinkCmdVel msg mi =>
    exact ⟨h1, h2, h3, insertPending_keys msg mi.Topic d.linkNames d.linkVels h4, h5⟩

theorem wellFormed_Configure (asValidTopic : String → String) (entity : Entity)
    (sdf : sdf.Element) (ecm : EntityComponentManager) :
    WellFormed (Configure asValidTopic entity sdf ecm VelocityControlPrivate.init) := by
  have hlinks : (Configure asValidTopic entity sdf ecm VelocityControlPrivate.init).links = []
      ∧ (Configure asValidTopic entity sdf ecm VelocityControlPrivate.init).angularVelocities
        = []
      ∧ (Configure asValidTopic entity sdf ecm VelocityControlPrivate.init).linearVelocities
        = []
      ∧ (Configure asValidTopic entity sdf ecm VelocityControlPrivate.init).linkVels = [] := by
    unfold Configure
    by_cases h1 : (!ecm.modelValid entity) = true
    · simp only [h1, if_true]
      exact ⟨rfl, rfl, rfl, rfl⟩
    · simp only [h1, if_false]
      by_cases h2 : sdf.link_name.isEmpty = true
      · simp only [h2, if_true]
        cases sdf.initial_linear <;> cases sdf.initial_angular <;> exact ⟨rfl, rfl, rfl, rfl⟩
      · simp only [h2, if_false]
        cases sdf.initial_linear <;> cases sdf.initial_angular <;> exact ⟨rfl, rfl, rfl, rfl⟩
  unfold WellFormed
  rw [hlinks.1, hlinks.2.1, hlinks.2.2.1, hlinks.2.2.2]
  exact ⟨List.nodup_nil, List.nodup_nil, List.nodup_nil, List.nodup_nil,
    fun k hk => absurd hk (List.not_mem_nil k)⟩

theorem linkCmds_entity_of_not_mem (kind : ComponentKind) (links : UnorderedMap Entity)
    (n : String) (e : Entity) (hoth : ∀ n', n' ≠ n → UnorderedMap.find links n' ≠ some e) :
    ∀ (vels : UnorderedMap math.Vector3d), n ∉ UnorderedMap.keys vels →
      ∀ w ∈ linkCmds kind links vels, w.entity ≠ e := by
  intro vels
  induction vels with
  | nil => intro _ w hw; simp [linkCmds] at hw
  | cons p rest ih =>
    obtain ⟨k, u⟩ := p
    intro hn w hw
    have hkn : k ≠ n ∧ n ∉ UnorderedMap.keys rest := by
      constructor
      · intro hk; exact hn (by simp [UnorderedMap.keys, hk])
      · intro hmem
        exact hn (by
          simp only [UnorderedMap.keys, List.map_cons, List.mem_cons]
          exact Or.inr hmem)
    unfold linkCmds at hw
    cases hk : UnorderedMap.find links k with
    | some x =>
      rw [hk] at hw
      simp only [List.mem_cons] at hw
      rcases hw with hw | hw
      · rw [hw]
        intro hx
        exact hoth k hkn.1 (by rw [hk]; exact congrArg some hx)
      · exact ih hkn.2 w hw
    | none =>
      rw [hk] at hw
      exact ih hkn.2 w hw

theorem lastWrite_linkCmds (kind : ComponentKind) (links : UnorderedMap Entity)
    (n : String) (e : Entity) (v : math.Vector3d)
    (hl : UnorderedMap.find links n = some e)
    (hoth : ∀ n', n' ≠ n → UnorderedMap.find links n' ≠ some e) :
    ∀ (vels : UnorderedMap math.Vector3d), (UnorderedMap.keys vels).Nodup →
      UnorderedMap.find vels n = some v →
      lastWrite kind e (linkCmds kind links vels) = some v := by
  intro vels
  induction vels with
  | nil => intro _ hv; simp [UnorderedMap.find] at hv
  | cons p rest ih =>
    obtain ⟨k, u⟩ := p
    intro hnodup hv
    have hnd : k ∉ UnorderedMap.keys rest ∧ (UnorderedMap.keys rest).Nodup := by
      simpa [UnorderedMap.keys] using hnodup
    by_cases hk : k = n
    · subst hk
      have huv : u = v := by simpa [UnorderedMap.find] using hv
      have hnone : lastWrite kind e (linkCmds kind links rest) = none :=
        lastWrite_eq_none kind e _ (fun w hw hc =>
          linkCmds_entity_of_not_mem kind links k e hoth rest hnd.1 w hw hc.2)
      unfold linkCmds
      rw [hl]
      simp only [lastWrite, hnone, huv, and_self, if_true]
    · have hv' : UnorderedMap.find rest n = some v := by
        simpa [UnorderedMap.find, hk] using hv
      have hrest := ih hnd.2 hv'
      unfold linkCmds
      cases UnorderedMap.find links k with
      | some x => simp only [lastWrite, hrest]
      | none => exact hrest

theorem store_link (info : UpdateInfo) (ecm : EntityComponentManager)
    (d : VelocityControlPrivate) (n : String) (e : Entity) (lin ang : math.Vector3d)
    (hp : info.paused = false) (hn : n ∈ d.linkNames)
    (hnodupA : (UnorderedMap.keys d.angularVelocities).Nodup)
    (hnodupL : (UnorderedMap.keys d.linearVelocities).Nodup)
    (hl : UnorderedMap.find (linksAfter ecm d) n = some e)
    (hoth : ∀ n', n' ≠ n → UnorderedMap.find (linksAfter ecm d) n' ≠ some e)
    (hlin : UnorderedMap.find d.linearVelocities n = some lin)
    (hang : UnorderedMap.find d.angularVelocities n = some ang)
    (store : EntityComponentManager) :
    (store.applyWrites (PreUpdate info ecm d).2).linearVelocityCmd e = some lin ∧
    (store.applyWrites (PreUpdate info ecm d).2).angularVelocityCmd e = some ang := by
  have hne : ¬ d.linkNames.isEmpty = true := by
    rw [List.isEmpty_iff]
    intro h
    rw [h] at hn
    exact absurd hn (List.not_mem_nil n)
  have hL := lastWrite_linkCmds ComponentKind.LinearVelocityCmd (linksAfter ecm d) n e lin hl
    hoth d.linearVelocities hnodupL hlin
  have hA := lastWrite_linkCmds ComponentKind.AngularVelocityCmd (linksAfter ecm d) n e ang hl
    hoth d.angularVelocities hnodupA hang
  have hAL : lastWrite ComponentKind.AngularVelocityCmd e
      (linkCmds ComponentKind.LinearVelocityCmd (linksAfter ecm d) d.linearVelocities)
      = none :=
    lastWrite_eq_none _ e _ (fun w hw hc => by
      have hk := linkCmds_kind ComponentKind.LinearVelocityCmd (linksAfter ecm d)
        d.linearVelocities w hw
      rw [hk] at hc
      exact ComponentKind.noConfusion hc.1)
  have hcL := component_applyWrites (PreUpdate info ecm d).2 ComponentKind.LinearVelocityCmd e
    store
  have hcA := component_applyWrites (PreUpdate info ecm d).2 ComponentKind.AngularVelocityCmd e
    store
  rw [PreUpdate_unpaused info ecm d hp] at hcL hcA ⊢
  simp only [if_neg hne] at hcL hcA ⊢
  rw [lastWrite_append, lastWrite_append, hL] at hcL
  rw [lastWrite_append, lastWrite_append, hAL, hA] at hcA
  exact ⟨hcL, hcA⟩

/-! ## Lemmas on runs -/

theorem ForallSteps_invariant (J : VelocityControlPrivate → Prop)
    (H Q : VelocityControlPrivate → Op → Prop)
    (hstep : ∀ dk op, J dk → H dk op → J (step dk op).1 ∧ Q dk op) :
    ∀ (ops : List Op) (dk : VelocityControlPrivate),
      J dk → ForallSteps H ops dk → ForallSteps Q ops dk ∧ J (run ops dk) := by
  intro ops
  induction ops with
  | nil => intro dk hJ _; exact ⟨trivial, hJ⟩
  | cons op rest ih =>
    intro dk hJ hH
    have h1 := hstep dk op hJ hH.1
    have h2 := ih (step dk op).1 h1.1 hH.2
    exact ⟨⟨h1.2, h2.1⟩, h2.2⟩

theorem ForallSteps_of_forall (A : Op → Prop) :
    ∀ (ops : List Op) (dk : VelocityControlPrivate),
      (∀ op ∈ ops, A op) → ForallSteps (fun _ op => A op) ops dk := by
  intro ops
  induction ops with
  | nil => intro dk _; exact trivial
  | cons op rest ih =>
    intro dk h
    exact ⟨h op (List.mem_cons_self op rest),
      ih _ (fun x hx => h x (List.mem_cons_of_mem op hx))⟩

theorem ForallSteps_and (P Q : VelocityControlPrivate → Op → Prop) :
    ∀ (ops : List Op) (dk : VelocityControlPrivate),
      ForallSteps P ops dk → ForallSteps Q ops dk →
      ForallSteps (fun d op => P d op ∧ Q d op) ops dk := by
  intro ops
  induction ops with
  | nil => intro dk _ _; exact trivial
  | cons op rest ih =>
    intro dk hP hQ
    exact ⟨⟨hP.1, hQ.1⟩, ih _ hP.2 hQ.2⟩

theorem ForallSteps_append (Q : VelocityControlPrivate → Op → Prop) :
    ∀ (a b : List Op) (dk : VelocityControlPrivate),
      ForallSteps Q (a ++ b) dk ↔ ForallSteps Q a dk ∧ ForallSteps Q b (run a dk) := by
  intro a
  induction a with
  | nil => intro b dk; simp [ForallSteps, run]
  | cons op rest ih =>
    intro b dk
    have h := ih b (step dk op).1
    show Q dk op ∧ ForallSteps Q (rest ++ b) (step dk op).1 ↔
      (Q dk op ∧ ForallSteps Q rest (step dk op).1) ∧ ForallSteps Q b (run rest (step dk op).1)
    rw [h, and_assoc]

theorem run_append (a b : List Op) :
    ∀ dk : VelocityControlPrivate, run (a ++ b) dk = run b (run a dk) := by
  induction a with
  | nil => intro dk; rfl
  | cons op rest ih => intro dk; exact ih (step dk op).1

theorem sample_firstMatch : FirstMatch sampleData.linkNames wheelTopic.Topic "wheel" :=
  ⟨[], ["arm"], rfl, fun _ h => absurd h (List.not_mem_nil _),
    (stdFind_isSome _ _).mp (by decide)⟩

/-! ## C1: first arrival wins within a drain interval -/

/-- C1. For a configured name `n` without pending message and two messages
whose topics are both attributed to `n` (the first configured name matching
the topic), `OnLinkCmdVel` of the first, `OnLinkCmdVel` of the second and one
unpaused `PostUpdate` leave the decoded first message as the linear and
angular velocity of `n`, leave no pending message, and the resulting private
data is the one obtained without the second message: its payload is
nowhere. -/
theorem first_arrival_wins (d : VelocityControlPrivate) (n : String)
    (m1 m2 : msgs.Twist) (i1 i2 : transport.MessageInfo)
    (info : UpdateInfo) (ecm : EntityComponentManager)
    (hpending : UnorderedMap.find d.linkVels n = none)
    (h1 : FirstMatch d.linkNames i1.Topic n) (h2 : FirstMatch d.linkNames i2.Topic n)
    (hp : info.paused = false) :
    UnorderedMap.find
        (PostUpdate info ecm (OnLinkCmdVel m2 i2 (OnLinkCmdVel m1 i1 d))).linearVelocities n
      = some (msgs.Convert m1.linear) ∧
    UnorderedMap.find
        (PostUpdate info ecm (OnLinkCmdVel m2 i2 (OnLinkCmdVel m1 i1 d))).angularVelocities n
      = some (msgs.Convert m1.angular) ∧
    (PostUpdate info ecm (OnLinkCmdVel m2 i2 (OnLinkCmdVel m1 i1 d))).linkVels = [] ∧
    OnLinkCmdVel m2 i2 (OnLinkCmdVel m1 i1 d) = OnLinkCmdVel m1 i1 d ∧
    PostUpdate info ecm (OnLinkCmdVel m2 i2 (OnLinkCmdVel m1 i1 d))
      = PostUpdate info ecm (OnLinkCmdVel m1 i1 d) := by
  have e1 : OnLinkCmdVel m1 i1 d = { d with linkVels := d.linkVels ++ [(n, m1)] } := by
    rw [OnLinkCmdVel_first_match m1 i1 d n h1, UnorderedMap.insert_of_find_none m1 hpending]
  have hfound : UnorderedMap.find (d.linkVels ++ [(n, m1)]) n = some m1 := by
    rw [UnorderedMap.find_append, hpending]
    simp [UnorderedMap.find]
  have e2 : OnLinkCmdVel m2 i2 (OnLinkCmdVel m1 i1 d) = OnLinkCmdVel m1 i1 d := by
    rw [e1]
    have h2' := OnLinkCmdVel_first_match m2 i2
      { d with linkVels := d.linkVels ++ [(n, m1)] } n h2
    rw [h2']
    simp only []
    rw [UnorderedMap.insert_of_find_some m2 hfound]
  rw [e2, e1]
  have hassign :
      ∀ d' : VelocityControlPrivate,
        UnorderedMap.find (drain [(n, m1)] d').linearVelocities n
            = some (msgs.Convert m1.linear) ∧
        UnorderedMap.find (drain [(n, m1)] d').angularVelocities n
            = some (msgs.Convert m1.angular) := by
    intro d'
    simp [drain, UnorderedMap.find_assign]
  refine ⟨?_, ?_, ?_, rfl, rfl⟩
  · simp only [PostUpdate, hp, UpdateLinkVelocity, Bool.false_eq_true, if_false]
    rw [drain_append]
    exact (hassign _).1
  · simp only [PostUpdate, hp, UpdateLinkVelocity, Bool.false_eq_true, if_false]
    rw [drain_append]
    exact (hassign _).2
  · simp [PostUpdate, hp, UpdateLinkVelocity]

/-- Witness of C1: two messages for `wheel` before one drain. -/
theorem first_arrival_wins_witness :
    UnorderedMap.find
        (PostUpdate unpausedStep sampleEcm
          (OnLinkCmdVel otherTwist wheelTopic
            (OnLinkCmdVel sampleTwist wheelTopic sampleData))).linearVelocities "wheel"
      = some ⟨1, 2, 3⟩ :=
  (first_arrival_wins sampleData "wheel" sampleTwist otherTwist wheelTopic wheelTopic
    unpausedStep sampleEcm rfl sample_firstMatch sample_firstMatch rfl).1

/-! ## C2: one-shot consumption -/

/-- C2. When the model linear command holds `v` and `persistentLinearVelocity`
is false, one unpaused `PreUpdate` calls `SetComponentData` with `v` on the
linear velocity command of the model entity (which is the value the store
then holds) and empties the stored linear command; a second unpaused
`PreUpdate` straight after makes no call on the linear velocity command of the
model entity (the store keeps what it had there).  The same holds for the
angular command with `persistentAngularVelocity`, whatever the linear command
is.  The model entity is assumed not to be its own link: no link name is
resolved to it, and the link lookup of both steps never returns it. -/
theorem one_shot_consumption (d : VelocityControlPrivate) (i1 i2 : UpdateInfo)
    (c1 c2 : EntityComponentManager)
    (hp1 : i1.paused = false) (hp2 : i2.paused = false)
    (hlinks : ∀ n, UnorderedMap.find d.links n ≠ some d.model)
    (hc1 : ∀ n, c1.linkByName d.model n ≠ d.model)
    (hc2 : ∀ n, c2.linkByName d.model n ≠ d.model) :
    (∀ v, d.linearVelocity = some v → d.persistentLinearVelocity = false →
      (⟨ComponentKind.LinearVelocityCmd, d.model, v⟩ : ComponentWrite) ∈ (PreUpdate i1 c1 d).2 ∧
      (∀ store : EntityComponentManager,
        (store.applyWrites (PreUpdate i1 c1 d).2).linearVelocityCmd d.model = some v) ∧
      (PreUpdate i1 c1 d).1.linearVelocity = none ∧
      (∀ w ∈ (PreUpdate i2 c2 (PreUpdate i1 c1 d).1).2,
        ¬ (w.kind = ComponentKind.LinearVelocityCmd ∧ w.entity = d.model)) ∧
      (∀ store : EntityComponentManager,
        (store.applyWrites (PreUpdate i2 c2 (PreUpdate i1 c1 d).1).2).linearVelocityCmd d.model
          = store.linearVelocityCmd d.model)) ∧
    (∀ v, d.angularVelocity = some v → d.persistentAngularVelocity = false →
      (⟨ComponentKind.AngularVelocityCmd, d.model, v⟩ : ComponentWrite) ∈ (PreUpdate i1 c1 d).2 ∧
      (∀ store : EntityComponentManager,
        (store.applyWrites (PreUpdate i1 c1 d).2).angularVelocityCmd d.model = some v) ∧
      (PreUpdate i1 c1 d).1.angularVelocity = none ∧
      (∀ w ∈ (PreUpdate i2 c2 (PreUpdate i1 c1 d).1).2,
        ¬ (w.kind = ComponentKind.AngularVelocityCmd ∧ w.entity = d.model)) ∧
      (∀ store : EntityComponentManager,
        (store.applyWrites (PreUpdate i2 c2 (PreUpdate i1 c1 d).1).2).angularVelocityCmd d.model
          = store.angularVelocityCmd d.model)) := by
  have hd1 : (PreUpdate i1 c1 d).1 =
      { d with
        angularVelocity := if d.persistentAngularVelocity then d.angularVelocity else none
        linearVelocity := if d.persistentLinearVelocity then d.linearVelocity else none
        links := linksAfter c1 d } := by
    rw [PreUpdate_unpaused i1 c1 d hp1]
  have hmodel1 : (PreUpdate i1 c1 d).1.model = d.model := by rw [hd1]
  have hlinks1 : ∀ n, UnorderedMap.find (PreUpdate i1 c1 d).1.links n ≠ some d.model := by
    rw [hd1]
    exact linksAfter_ne c1 d d.model hlinks hc1
  have hlast1 := fun kind => lastWrite_model kind i1 c1 d hp1 hlinks hc1
  have hlast2 := fun kind => lastWrite_model kind i2 c2 (PreUpdate i1 c1 d).1 hp2
    (by rw [hmodel1]; exact hlinks1) (by rw [hmodel1]; exact hc2)
  have hmem2 := mem_writes_model i2 c2 (PreUpdate i1 c1 d).1 hp2
    (by rw [hmodel1]; exact hlinks1) (by rw [hmodel1]; exact hc2)
  rw [hmodel1] at hlast2 hmem2
  constructor
  · intro v hv hpers
    refine ⟨?_, ?_, ?_, ?_, ?_⟩
    · rw [PreUpdate_unpaused i1 c1 d hp1]
      apply List.mem_append_left
      simp [modelCmds, hv]
    · intro store
      have h := component_applyWrites (PreUpdate i1 c1 d).2 ComponentKind.LinearVelocityCmd
        d.model store
      rw [hlast1 ComponentKind.LinearVelocityCmd] at h
      simp only [hv] at h
      exact h
    · rw [hd1]; simp [hpers]
    · intro w hw hcontra
      have hin := hmem2 w hw hcontra.2
      have hnone : (PreUpdate i1 c1 d).1.linearVelocity = none := by rw [hd1]; simp [hpers]
      unfold modelCmds at hin
      rw [hnone] at hin
      have hk := hcontra.1
      cases hav : (PreUpdate i1 c1 d).1.angularVelocity with
      | none => rw [hav] at hin; simp at hin
      | some u =>
        rw [hav] at hin
        simp only [List.append_nil, List.mem_singleton] at hin
        rw [hin] at hk
        exact ComponentKind.noConfusion hk
    · intro store
      have h := component_applyWrites (PreUpdate i2 c2 (PreUpdate i1 c1 d).1).2
        ComponentKind.LinearVelocityCmd d.model store
      rw [hlast2 ComponentKind.LinearVelocityCmd] at h
      have hnone : (PreUpdate i1 c1 d).1.linearVelocity = none := by rw [hd1]; simp [hpers]
      simp only [hnone] at h
      exact h
  · intro v hv hpers
    refine ⟨?_, ?_, ?_, ?_, ?_⟩
    · rw [PreUpdate_unpaused i1 c1 d hp1]
      apply List.mem_append_left
      simp [modelCmds, hv]
    · intro store
      have h := component_applyWrites (PreUpdate i1 c1 d).2 ComponentKind.AngularVelocityCmd
        d.model store
      rw [hlast1 ComponentKind.AngularVelocityCmd] at h
      simp only [hv] at h
      exact h
    · rw [hd1]; simp [hpers]
    · intro w hw hcontra
      have hin := hmem2 w hw hcontra.2
      have hnone : (PreUpdate i1 c1 d).1.angularVelocity = none := by rw [hd1]; simp [hpers]
      unfold modelCmds at hin
      rw [hnone] at hin
      have hk := hcontra.1
      cases hlv : (PreUpdate i1 c1 d).1.linearVelocity with
      | none => rw [hlv] at hin; simp at hin
      | some u =>
        rw [hlv] at hin
        simp only [List.nil_append, List.mem_singleton] at hin
        rw [hin] at hk
        exact ComponentKind.noConfusion hk
    · intro store
      have h := component_applyWrites (PreUpdate i2 c2 (PreUpdate i1 c1 d).1).2
        ComponentKind.AngularVelocityCmd d.model store
      rw [hlast2 ComponentKind.AngularVelocityCmd] at h
      have hnone : (PreUpdate i1 c1 d).1.angularVelocity = none := by rw [hd1]; simp [hpers]
      simp only [hnone] at h
      exact h

theorem sampleEcm_linkByName_ne (n : String) : sampleEcm.linkByName 1 n ≠ 1 := by
  unfold sampleEcm
  by_cases h : n = "wheel" <;> simp [h, kNullEntity]

/-- Witness of C2: the end-to-end example, linear `(1, 0, 0)` configured with
`persistent="false"`. -/
theorem one_shot_consumption_witness :
    (⟨ComponentKind.LinearVelocityCmd, 1, ⟨1, 0, 0⟩⟩ : ComponentWrite)
        ∈ (PreUpdate unpausedStep sampleEcm oneShotData).2 ∧
    (PreUpdate unpausedStep sampleEcm oneShotData).1.linearVelocity = none ∧
    ∀ w ∈ (PreUpdate unpausedStep sampleEcm (PreUpdate unpausedStep sampleEcm oneShotData).1).2,
      ¬ (w.kind = ComponentKind.LinearVelocityCmd ∧ w.entity = 1) :=
  have h := (one_shot_consumption oneShotData unpausedStep unpausedStep sampleEcm sampleEcm
    rfl rfl (fun _ hx => Option.noConfusion hx) sampleEcm_linkByName_ne
    sampleEcm_linkByName_ne).1 ⟨1, 0, 0⟩ (by decide) (by decide)
  ⟨h.1, h.2.2.1, h.2.2.2.1⟩

/-! ## C3: whole-entity commands are last-wins and sticky -/

/-- C3. After any sequence of `OnCmdVel` calls ending with the message `m`,
from any private data (whatever its persistence flags), every unpaused
`PreUpdate` of any later sequence of calls without another `OnCmdVel` calls
`SetComponentData` with the decoded linear part of `m` on the linear velocity
command of the model entity and with the decoded angular part on its angular
velocity command; after the sequence the stored command is still the decoded
`m`, with both persistence flags true. -/
theorem whole_entity_last_wins_sticky (d : VelocityControlPrivate)
    (earlier : List msgs.Twist) (m : msgs.Twist) (ops : List Op)
    (hops : ∀ op ∈ ops, ∀ msg, op ≠ Op.OnCmdVel msg) :
    ForallSteps
      (fun dk op => ∀ i c, op = Op.PreUpdate i c → i.paused = false →
        (⟨ComponentKind.LinearVelocityCmd, d.model, msgs.Convert m.linear⟩ : ComponentWrite)
          ∈ (PreUpdate i c dk).2 ∧
        (⟨ComponentKind.AngularVelocityCmd, d.model, msgs.Convert m.angular⟩ : ComponentWrite)
          ∈ (PreUpdate i c dk).2)
      ops (OnCmdVel m (earlier.foldl (fun s x => OnCmdVel x s) d)) ∧
    (run ops (OnCmdVel m (earlier.foldl (fun s x => OnCmdVel x s) d))).linearVelocity
      = some (msgs.Convert m.linear) ∧
    (run ops (OnCmdVel m (earlier.foldl (fun s x => OnCmdVel x s) d))).angularVelocity
      = some (msgs.Convert m.angular) ∧
    (run ops (OnCmdVel m (earlier.foldl (fun s x => OnCmdVel x s) d))).persistentLinearVelocity
      = true ∧
    (run ops (OnCmdVel m (earlier.foldl (fun s x => OnCmdVel x s) d))).persistentAngularVelocity
      = true := by
  have hfold : ∀ (l : List msgs.Twist) (s : VelocityControlPrivate),
      (l.foldl (fun s x => OnCmdVel x s) s).model = s.model := by
    intro l
    induction l with
    | nil => intro s; rfl
    | cons x rest ih => intro s; exact (ih (OnCmdVel x s)).trans rfl
  let J : VelocityControlPrivate → Prop := fun dk =>
    dk.model = d.model ∧ dk.linearVelocity = some (msgs.Convert m.linear) ∧
    dk.angularVelocity = some (msgs.Convert m.angular) ∧
    dk.persistentLinearVelocity = true ∧ dk.persistentAngularVelocity = true
  have hJ0 : J (OnCmdVel m (earlier.foldl (fun s x => OnCmdVel x s) d)) :=
    ⟨hfold earlier d, rfl, rfl, rfl, rfl⟩
  have hstep : ∀ dk op, J dk → (∀ msg, op ≠ Op.OnCmdVel msg) →
      J (step dk op).1 ∧
      (∀ i c, op = Op.PreUpdate i c → i.paused = false →
        (⟨ComponentKind.LinearVelocityCmd, d.model, msgs.Convert m.linear⟩ : ComponentWrite)
          ∈ (PreUpdate i c dk).2 ∧
        (⟨ComponentKind.AngularVelocityCmd, d.model, msgs.Convert m.angular⟩ : ComponentWrite)
          ∈ (PreUpdate i c dk).2) := by
    intro dk op hJ hop
    obtain ⟨hm, hl, ha, hpl, hpa⟩ := hJ
    constructor
    · cases op with
      | PreUpdate i c =>
        cases hpz : i.paused with
        | true =>
          simp only [step]
          rw [PreUpdate_paused i c dk hpz]
          exact ⟨hm, hl, ha, hpl, hpa⟩
        | false =>
          simp only [step]
          rw [PreUpdate_unpaused i c dk hpz]
          exact ⟨hm, by simp [hpl, hl], by simp [hpa, ha], hpl, hpa⟩
      | PostUpdate i c =>
        cases hpz : i.paused with
        | true =>
          simp only [step, PostUpdate, hpz, if_true]
          exact ⟨hm, hl, ha, hpl, hpa⟩
        | false =>
          have hdm := drain_model dk.linkVels dk
          simp only [step, PostUpdate, hpz, UpdateLinkVelocity, Bool.false_eq_true, if_false]
          exact ⟨hdm.2.1.trans hm, hdm.2.2.2.2.1.trans hl, hdm.2.2.1.trans ha,
            hdm.2.2.2.2.2.1.trans hpl, hdm.2.2.2.1.trans hpa⟩
      | OnCmdVel msg => exact absurd rfl (hop msg)
      | OnLinkCmdVel msg mi => exact ⟨hm, hl, ha, hpl, hpa⟩
    · intro i c _ hpz
      rw [PreUpdate_unpaused i c dk hpz]
      constructor
      · apply List.mem_append_left
        simp [modelCmds, hl, hm]
      · apply List.mem_append_left
        simp [modelCmds, ha, hm]
  have h := ForallSteps_invariant J (fun _ op => ∀ msg, op ≠ Op.OnCmdVel msg) _ hstep ops _ hJ0
    (ForallSteps_of_forall _ ops _ hops)
  exact ⟨h.1, h.2.2.1, h.2.2.2.1, h.2.2.2.2.1, h.2.2.2.2.2⟩

/-- Witness of C3: a one-shot configuration, two commands, then two full
unpaused steps. -/
theorem whole_entity_last_wins_sticky_witness :
    (run [Op.PreUpdate unpausedStep sampleEcm, Op.PostUpdate unpausedStep sampleEcm,
          Op.PreUpdate unpausedStep sampleEcm, Op.PostUpdate unpausedStep sampleEcm]
        (OnCmdVel sampleTwist
          ([otherTwist].foldl (fun s x => OnCmdVel x s) oneShotData))).linearVelocity
      = some ⟨1, 2, 3⟩ :=
  (whole_entity_last_wins_sticky oneShotData [otherTwist] sampleTwist
    [Op.PreUpdate unpausedStep sampleEcm, Op.PostUpdate unpausedStep sampleEcm,
      Op.PreUpdate unpausedStep sampleEcm, Op.PostUpdate unpausedStep sampleEcm]
    (by
      intro op hop msg
      simp only [List.mem_cons, List.mem_singleton, List.not_mem_nil, or_false] at hop
      rcases hop with h | h | h | h <;> rw [h] <;> exact fun hx => Op.noConfusion hx)).2.1

/-! ## C4: step-boundary visibility -/

theorem PreUpdate_linkVels (info : UpdateInfo) (ecm : EntityComponentManager)
    (d : VelocityControlPrivate) (l : UnorderedMap msgs.Twist) :
    PreUpdate info ecm { d with linkVels := l }
      = ({ (PreUpdate info ecm d).1 with linkVels := l }, (PreUpdate info ecm d).2) := by
  cases hp : info.paused with
  | true => rw [PreUpdate_paused info ecm _ hp, PreUpdate_paused info ecm d hp]
  | false =>
    rw [PreUpdate_unpaused info ecm _ hp, PreUpdate_unpaused info ecm d hp]
    rfl

theorem trace_linkVels :
    ∀ (ops : List Op) (d : VelocityControlPrivate) (l : UnorderedMap msgs.Twist),
      (∀ op ∈ ops, NotDrain op) → trace ops { d with linkVels := l } = trace ops d := by
  intro ops
  induction ops with
  | nil => intro d l _; rfl
  | cons op rest ih =>
    intro d l h
    have hrest : ∀ x ∈ rest, NotDrain x := fun x hx => h x (List.mem_cons_of_mem op hx)
    have hop : NotDrain op := h op (List.mem_cons_self op rest)
    cases op with
    | PreUpdate i c =>
      simp only [trace, step]
      rw [PreUpdate_linkVels i c d l]
      simp only []
      rw [ih (PreUpdate i c d).1 l hrest]
    | PostUpdate i c =>
      have hp : i.paused = true := hop i c rfl
      simp only [trace, step, PostUpdate, hp, if_true]
      rw [ih d l hrest]
    | OnCmdVel msg =>
      simp only [trace, step]
      exact congrArg _ (ih (OnCmdVel msg d) l hrest)
    | OnLinkCmdVel msg mi =>
      simp only [trace, step]
      have h1 := ih d (insertPending msg mi.Topic d.linkNames l) hrest
      have h2 := ih d (insertPending msg mi.Topic d.linkNames d.linkVels) hrest
      exact congrArg _ (h1.trans h2.symm)

/-- C4. `OnLinkCmdVel` changes neither the link velocities, the model command
and its flags nor the link map (only the pending buffer can change), so a
`PreUpdate` on the private data after `OnLinkCmdVel` makes exactly the
`SetComponentData` calls of a `PreUpdate` on the private data before it; and
along any sequence of calls that contains no unpaused `PostUpdate` (no drain),
every call makes the same `SetComponentData` calls whether or not the message
had arrived first: the message can reach the component store only after an
unpaused `PostUpdate`. -/
theorem step_boundary_visibility (msg : msgs.Twist) (mi : transport.MessageInfo)
    (d : VelocityControlPrivate) :
    (OnLinkCmdVel msg mi d).linearVelocities = d.linearVelocities ∧
    (OnLinkCmdVel msg mi d).angularVelocities = d.angularVelocities ∧
    (OnLinkCmdVel msg mi d).linearVelocity = d.linearVelocity ∧
    (OnLinkCmdVel msg mi d).angularVelocity = d.angularVelocity ∧
    (OnLinkCmdVel msg mi d).persistentLinearVelocity = d.persistentLinearVelocity ∧
    (OnLinkCmdVel msg mi d).persistentAngularVelocity = d.persistentAngularVelocity ∧
    (OnLinkCmdVel msg mi d).links = d.links ∧
    (∀ i c, (PreUpdate i c (OnLinkCmdVel msg mi d)).2 = (PreUpdate i c d).2) ∧
    (∀ ops, (∀ op ∈ ops, NotDrain op) →
      trace ops (OnLinkCmdVel msg mi d) = trace ops d) := by
  refine ⟨rfl, rfl, rfl, rfl, rfl, rfl, rfl, ?_, ?_⟩
  · intro i c
    unfold OnLinkCmdVel
    rw [PreUpdate_linkVels i c d]
  · intro ops hops
    unfold OnLinkCmdVel
    exact trace_linkVels ops d _ hops

/-- Witness of C4: a message for `wheel`, then a step whose `PostUpdate` is
paused, then an unpaused `PreUpdate`: the message is not seen. -/
theorem step_boundary_visibility_witness :
    trace [Op.PreUpdate unpausedStep sampleEcm, Op.PostUpdate pausedStep sampleEcm,
        Op.PreUpdate unpausedStep sampleEcm]
      (OnLinkCmdVel sampleTwist wheelTopic sampleData)
    = trace [Op.PreUpdate unpausedStep sampleEcm, Op.PostUpdate pausedStep sampleEcm,
        Op.PreUpdate unpausedStep sampleEcm] sampleData :=
  (step_boundary_visibility sampleTwist wheelTopic sampleData).2.2.2.2.2.2.2.2
    [Op.PreUpdate unpausedStep sampleEcm, Op.PostUpdate pausedStep sampleEcm,
      Op.PreUpdate unpausedStep sampleEcm]
    (by
      intro op hop i c hic
      simp only [List.mem_cons, List.mem_singleton, List.not_mem_nil, or_false] at hop
      rcases hop with h | h | h
      · rw [h] at hic; exact Op.noConfusion hic
      · rw [h] at hic
        injection hic with h1 _
        rw [← h1]; rfl
      · rw [h] at hic; exact Op.noConfusion hic)

/-! ## C7: link application with retried resolution -/

theorem linksAfter_others (ecm : EntityComponentManager) (d : VelocityControlPrivate)
    (n : String) (e : Entity) (hwf : WellFormed d)
    (hoth : ∀ n', n' ≠ n → UnorderedMap.find d.links n' ≠ some e)
    (hlook : ∀ n', n' ≠ n → ecm.linkByName d.model n' ≠ e) :
    ∀ n', n' ≠ n → UnorderedMap.find (linksAfter ecm d) n' ≠ some e := by
  intro n' hn'
  rw [linksAfter_find ecm d hwf n']
  cases hk : UnorderedMap.find d.links n' with
  | some x =>
    intro hx
    exact hoth n' hn' (by rw [hk]; exact hx)
  | none =>
    simp only []
    by_cases h3 : n' ∈ d.linkNames ∧ ecm.linkByName d.model n' ≠ kNullEntity
    · rw [if_pos h3]
      intro hx
      exact hlook n' hn' (Option.some.inj hx)
    · rw [if_neg h3]
      exact fun hx => Option.noConfusion hx

theorem unpaused_or_links (op : Op) :
    (∃ i c, op = Op.PreUpdate i c ∧ i.paused = false) ∨
    (∀ i c, op = Op.PreUpdate i c → i.paused = true) := by
  cases op with
  | PreUpdate i c =>
    cases hp : i.paused with
    | true =>
      right
      intro i' c' h
      injection h with h1 _
      rw [← h1]; exact hp
    | false => exact Or.inl ⟨i, c, rfl, hp⟩
  | PostUpdate i c => exact Or.inr (fun _ _ h => Op.noConfusion h)
  | OnCmdVel msg => exact Or.inr (fun _ _ h => Op.noConfusion h)
  | OnLinkCmdVel msg mi => exact Or.inr (fun _ _ h => Op.noConfusion h)

theorem step_unresolved (n : String) (e : Entity) (dk : VelocityControlPrivate) (op : Op)
    (hwf : WellFormed dk) (hun : UnorderedMap.find dk.links n = none)
    (hoth : ∀ n', n' ≠ n → UnorderedMap.find dk.links n' ≠ some e)
    (hnull : ∀ i c, op = Op.PreUpdate i c → i.paused = false →
      c.linkByName dk.model n = kNullEntity)
    (hlook : ∀ i c, op = Op.PreUpdate i c → i.paused = false →
      ∀ n', n' ≠ n → c.linkByName dk.model n' ≠ e) :
    (UnorderedMap.find (step dk op).1.links n = none ∧
      ∀ n', n' ≠ n → UnorderedMap.find (step dk op).1.links n' ≠ some e) ∧
    (∀ i c, op = Op.PreUpdate i c → i.paused = false →
      (PreUpdate i c dk).2 = (PreUpdate i c (forget n dk)).2 ∧
      UnorderedMap.find (PreUpdate i c dk).1.links n = none) := by
  rcases unpaused_or_links op with ⟨i, c, hop, hpz⟩ | hpaused
  · subst hop
    have hnone : UnorderedMap.find (linksAfter c dk) n = none := by
      rw [linksAfter_find c dk hwf n, hun]
      simp [hnull i c rfl hpz]
    have hothers := linksAfter_others c dk n e hwf hoth (hlook i c rfl hpz)
    have hlinks : (PreUpdate i c dk).1.links = linksAfter c dk := by
      rw [PreUpdate_unpaused i c dk hpz]
    refine ⟨⟨?_, ?_⟩, ?_⟩
    · show UnorderedMap.find (PreUpdate i c dk).1.links n = none
      rw [hlinks]; exact hnone
    · show ∀ n', n' ≠ n → UnorderedMap.find (PreUpdate i c dk).1.links n' ≠ some e
      rw [hlinks]; exact hothers
    · intro i' c' h hpz'
      injection h with h1 h2
      subst h1
      subst h2
      refine ⟨?_, by rw [hlinks]; exact hnone⟩
      have hA := linkCmds_forget ComponentKind.AngularVelocityCmd (linksAfter c dk) n hnone
        dk.angularVelocities
      have hL := linkCmds_forget ComponentKind.LinearVelocityCmd (linksAfter c dk) n hnone
        dk.linearVelocities
      rw [PreUpdate_unpaused i c dk hpz, PreUpdate_unpaused i c (forget n dk) hpz]
      show modelCmds dk ++
          (if dk.linkNames.isEmpty then []
           else linkCmds ComponentKind.AngularVelocityCmd (linksAfter c dk) dk.angularVelocities
            ++ linkCmds ComponentKind.LinearVelocityCmd (linksAfter c dk) dk.linearVelocities)
        = modelCmds dk ++
          (if dk.linkNames.isEmpty then []
           else linkCmds ComponentKind.AngularVelocityCmd (linksAfter c dk)
              (dk.angularVelocities.filter (fun p => decide (p.1 ≠ n)))
            ++ linkCmds ComponentKind.LinearVelocityCmd (linksAfter c dk)
              (dk.linearVelocities.filter (fun p => decide (p.1 ≠ n))))
      rw [← hA, ← hL]
  · have hlinks := step_links dk op hpaused
    refine ⟨⟨by rw [hlinks]; exact hun, by rw [hlinks]; exact hoth⟩, ?_⟩
    intro i c h hpz
    rw [hpaused i c h] at hpz
    exact Bool.noConfusion hpz

theorem step_resolved (n : String) (e : Entity) (lin ang : math.Vector3d)
    (dk : VelocityControlPrivate) (op : Op)
    (hwf : WellFormed dk) (hn : n ∈ dk.linkNames)
    (hres : UnorderedMap.find dk.links n = some e)
    (hoth : ∀ n', n' ≠ n → UnorderedMap.find dk.links n' ≠ some e)
    (hlin : UnorderedMap.find dk.linearVelocities n = some lin)
    (hang : UnorderedMap.find dk.angularVelocities n = some ang)
    (hlook : ∀ i c, op = Op.PreUpdate i c → i.paused = false →
      ∀ n', n' ≠ n → c.linkByName dk.model n' ≠ e) :
    (UnorderedMap.find (step dk op).1.links n = some e ∧
      ∀ n', n' ≠ n → UnorderedMap.find (step dk op).1.links n' ≠ some e) ∧
    (∀ i c, op = Op.PreUpdate i c → i.paused = false →
      UnorderedMap.find dk.links n = some e ∧
      ∀ store : EntityComponentManager,
        (store.applyWrites (PreUpdate i c dk).2).linearVelocityCmd e = some lin ∧
        (store.applyWrites (PreUpdate i c dk).2).angularVelocityCmd e = some ang) := by
  rcases unpaused_or_links op with ⟨i, c, hop, hpz⟩ | hpaused
  · subst hop
    have hsome : UnorderedMap.find (linksAfter c dk) n = some e := by
      rw [linksAfter_find c dk hwf n, hres]
    have hothers := linksAfter_others c dk n e hwf hoth (hlook i c rfl hpz)
    have hlinks : (PreUpdate i c dk).1.links = linksAfter c dk := by
      rw [PreUpdate_unpaused i c dk hpz]
    refine ⟨⟨?_, ?_⟩, ?_⟩
    · show UnorderedMap.find (PreUpdate i c dk).1.links n = some e
      rw [hlinks]; exact hsome
    · show ∀ n', n' ≠ n → UnorderedMap.find (PreUpdate i c dk).1.links n' ≠ some e
      rw [hlinks]; exact hothers
    · intro i' c' h hpz'
      injection h with h1 h2
      subst h1
      subst h2
      exact ⟨hres, fun store => store_link i c dk n e lin ang hpz hn hwf.2.1 hwf.2.2.1 hsome
        hothers hlin hang store⟩
  · have hlinks := step_links dk op hpaused
    refine ⟨⟨by rw [hlinks]; exact hres, by rw [hlinks]; exact hoth⟩, ?_⟩
    intro i c h hpz
    rw [hpaused i c h] at hpz
    exact Bool.noConfusion hpz

/-- C7. Let `n` be a configured name that is not yet in the link map, in a
well-formed private data, and let the velocities of `n` be `lin` and `ang` at
every call of the run below (no drain changes them).  Let the calls `ops1` be
such that the link lookup of `n` returns the null entity at each of their
unpaused `PreUpdate`s, let the lookup return the handle `e` at the next
unpaused `PreUpdate`, and let no other name be resolved to `e` (neither in the
link map nor by a lookup of an unpaused `PreUpdate` of the run).  Then
* every unpaused `PreUpdate` of `ops1` makes exactly the `SetComponentData`
  calls it would make with the velocities of `n` forgotten, and leaves `n`
  unresolved;
* the next unpaused `PreUpdate` records `n -> e`, and the store it leaves has
  `lin` as linear and `ang` as angular velocity command of `e`;
* at every unpaused `PreUpdate` of the later calls `ops2`, `n` is still
  resolved to `e` and the store it leaves has `lin` and `ang` on `e` again. -/
theorem retried_resolution (d : VelocityControlPrivate) (n : String)
    (lin ang : math.Vector3d) (e : Entity) (ops1 ops2 : List Op)
    (info : UpdateInfo) (ecm : EntityComponentManager)
    (hwf : WellFormed d) (hn : n ∈ d.linkNames)
    (hunres : UnorderedMap.find d.links n = none)
    (hoth : ∀ n', n' ≠ n → UnorderedMap.find d.links n' ≠ some e)
    (hnull : ∀ op ∈ ops1, ∀ i c, op = Op.PreUpdate i c → i.paused = false →
      c.linkByName d.model n = kNullEntity)
    (hp : info.paused = false) (hres : ecm.linkByName d.model n = e) (he : e ≠ kNullEntity)
    (hlook : ∀ op ∈ ops1 ++ Op.PreUpdate info ecm :: ops2, ∀ i c, op = Op.PreUpdate i c →
      i.paused = false → ∀ n', n' ≠ n → c.linkByName d.model n' ≠ e)
    (hkeep : ForallSteps
      (fun dk _ => UnorderedMap.find dk.linearVelocities n = some lin ∧
        UnorderedMap.find dk.angularVelocities n = some ang)
      (ops1 ++ Op.PreUpdate info ecm :: ops2) d) :
    ForallSteps
      (fun dk op => ∀ i c, op = Op.PreUpdate i c → i.paused = false →
        (PreUpdate i c dk).2 = (PreUpdate i c (forget n dk)).2 ∧
        UnorderedMap.find (PreUpdate i c dk).1.links n = none)
      ops1 d ∧
    (UnorderedMap.find (run ops1 d).links n = none ∧
      UnorderedMap.find (PreUpdate info ecm (run ops1 d)).1.links n = some e ∧
      ∀ store : EntityComponentManager,
        (store.applyWrites (PreUpdate info ecm (run ops1 d)).2).linearVelocityCmd e
          = some lin ∧
        (store.applyWrites (PreUpdate info ecm (run ops1 d)).2).angularVelocityCmd e
          = some ang) ∧
    ForallSteps
      (fun dk op => ∀ i c, op = Op.PreUpdate i c → i.paused = false →
        UnorderedMap.find dk.links n = some e ∧
        ∀ store : EntityComponentManager,
          (store.applyWrites (PreUpdate i c dk).2).linearVelocityCmd e = some lin ∧
          (store.applyWrites (PreUpdate i c dk).2).angularVelocityCmd e = some ang)
      ops2 (run (ops1 ++ [Op.PreUpdate info ecm]) d) := by
  -- the hypotheses on the calls, by phase
  have hlook1 : ∀ op ∈ ops1, ∀ i c, op = Op.PreUpdate i c → i.paused = false →
      ∀ n', n' ≠ n → c.linkByName d.model n' ≠ e :=
    fun op hop => hlook op (List.mem_append_left _ hop)
  have hlookMid : ∀ n', n' ≠ n → ecm.linkByName d.model n' ≠ e :=
    hlook (Op.PreUpdate info ecm)
      (List.mem_append_right _ (List.mem_cons_self _ _)) info ecm rfl hp
  have hlook2 : ∀ op ∈ ops2, ∀ i c, op = Op.PreUpdate i c → i.paused = false →
      ∀ n', n' ≠ n → c.linkByName d.model n' ≠ e :=
    fun op hop => hlook op (List.mem_append_right _ (List.mem_cons_of_mem _ hop))
  have hkeep' := (ForallSteps_append _ ops1 (Op.PreUpdate info ecm :: ops2) d).mp hkeep
  have hkeepMid := hkeep'.2.1
  have hkeep2 := hkeep'.2.2
  -- phase 1: the name stays unresolved
  have hphase1 := ForallSteps_invariant
    (fun dk => WellFormed dk ∧ dk.model = d.model ∧ dk.linkNames = d.linkNames ∧
      UnorderedMap.find dk.links n = none ∧
      ∀ n', n' ≠ n → UnorderedMap.find dk.links n' ≠ some e)
    (fun _ op =>
      (∀ i c, op = Op.PreUpdate i c → i.paused = false →
        c.linkByName d.model n = kNullEntity) ∧
      (∀ i c, op = Op.PreUpdate i c → i.paused = false →
        ∀ n', n' ≠ n → c.linkByName d.model n' ≠ e))
    (fun dk op => ∀ i c, op = Op.PreUpdate i c → i.paused = false →
        (PreUpdate i c dk).2 = (PreUpdate i c (forget n dk)).2 ∧
        UnorderedMap.find (PreUpdate i c dk).1.links n = none)
    (by
      intro dk op hJ hH
      obtain ⟨hwfk, hmk, hnk, hunk, hothk⟩ := hJ
      have hs := step_unresolved n e dk op hwfk hunk hothk
        (by rw [hmk]; exact hH.1) (by rw [hmk]; exact hH.2)
      have hf := step_frame dk op
      exact ⟨⟨wellFormed_step dk op hwfk, hf.1.trans hmk, hf.2.1.trans hnk, hs.1.1, hs.1.2⟩,
        hs.2⟩)
    ops1 d ⟨hwf, rfl, rfl, hunres, hoth⟩
    (ForallSteps_of_forall _ ops1 d (fun op hop => ⟨hnull op hop, hlook1 op hop⟩))
  obtain ⟨hQ1, hwf1, hm1, hn1, hun1, hoth1⟩ := hphase1
  -- phase 2: the resolving call
  have hn1' : n ∈ (run ops1 d).linkNames := by rw [hn1]; exact hn
  have hsome : UnorderedMap.find (linksAfter ecm (run ops1 d)) n = some e := by
    rw [linksAfter_find ecm (run ops1 d) hwf1 n, hun1, hm1, hres]
    have he' : e ≠ kNullEntity := he
    simp [hn1', he']
  have hothers := linksAfter_others ecm (run ops1 d) n e hwf1 hoth1
    (by rw [hm1]; exact hlookMid)
  have hlinksMid : (PreUpdate info ecm (run ops1 d)).1.links = linksAfter ecm (run ops1 d) := by
    rw [PreUpdate_unpaused info ecm (run ops1 d) hp]
  have hstore := fun store => store_link info ecm (run ops1 d) n e lin ang hp hn1' hwf1.2.1
    hwf1.2.2.1 hsome hothers hkeepMid.1 hkeepMid.2 store
  -- phase 3: the name stays resolved
  have hrunMid : run (ops1 ++ [Op.PreUpdate info ecm]) d
      = (step (run ops1 d) (Op.PreUpdate info ecm)).1 := by
    rw [run_append]; rfl
  have hfMid := step_frame (run ops1 d) (Op.PreUpdate info ecm)
  have hphase3 := ForallSteps_invariant
    (fun dk => WellFormed dk ∧ dk.model = d.model ∧ dk.linkNames = d.linkNames ∧
      UnorderedMap.find dk.links n = some e ∧
      ∀ n', n' ≠ n → UnorderedMap.find dk.links n' ≠ some e)
    (fun dk op =>
      (UnorderedMap.find dk.linearVelocities n = some lin ∧
        UnorderedMap.find dk.angularVelocities n = some ang) ∧
      (∀ i c, op = Op.PreUpdate i c → i.paused = false →
        ∀ n', n' ≠ n → c.linkByName d.model n' ≠ e))
    (fun dk op => ∀ i c, op = Op.PreUpdate i c → i.paused = false →
        UnorderedMap.find dk.links n = some e ∧
        ∀ store : EntityComponentManager,
          (store.applyWrites (PreUpdate i c dk).2).linearVelocityCmd e = some lin ∧
          (store.applyWrites (PreUpdate i c dk).2).angularVelocityCmd e = some ang)
    (by
      intro dk op hJ hH
      obtain ⟨hwfk, hmk, hnk, hresk, hothk⟩ := hJ
      have hs := step_resolved n e lin ang dk op hwfk (by rw [hnk]; exact hn) hresk hothk
        hH.1.1 hH.1.2 (by rw [hmk]; exact hH.2)
      have hf := step_frame dk op
      exact ⟨⟨wellFormed_step dk op hwfk, hf.1.trans hmk, hf.2.1.trans hnk, hs.1.1, hs.1.2⟩,
        hs.2⟩)
    ops2 (step (run ops1 d) (Op.PreUpdate info ecm)).1
    ⟨wellFormed_step _ _ hwf1, hfMid.1.trans hm1, hfMid.2.1.trans hn1,
      by show UnorderedMap.find (PreUpdate info ecm (run ops1 d)).1.links n = some e
         rw [hlinksMid]; exact hsome,
      by show ∀ n', n' ≠ n →
            UnorderedMap.find (PreUpdate info ecm (run ops1 d)).1.links n' ≠ some e
         rw [hlinksMid]; exact hothers⟩
    (ForallSteps_and _ _ ops2 _ hkeep2 (ForallSteps_of_forall _ ops2 _ hlook2))
  refine ⟨hQ1, ⟨hun1, by rw [hlinksMid]; exact hsome, hstore⟩, ?_⟩
  rw [hrunMid]
  exact hphase3.1

theorem sample_lookup_others (op : Op)
    (hop : op ∈ retryOps ++ Op.PreUpdate unpausedStep sampleEcm :: laterOps)
    (i : UpdateInfo) (c : EntityComponentManager) (hic : op = Op.PreUpdate i c)
    (n' : String) (hn' : n' ≠ "wheel") : c.linkByName wheelCommanded.model n' ≠ 7 := by
  have hempty : ∀ m : Entity, emptyEcm.linkByName m n' ≠ 7 := by
    intro m; simp [emptyEcm, kNullEntity]
  have hsample : ∀ m : Entity, sampleEcm.linkByName m n' ≠ 7 := by
    intro m; simp [sampleEcm, kNullEntity, hn']
  simp only [retryOps, laterOps, List.cons_append, List.nil_append, List.mem_cons,
    List.mem_singleton, List.not_mem_nil, or_false] at hop
  rcases hop with h | h | h | h | h | h <;> rw [h] at hic
  · injection hic with _ h2; rw [← h2]; exact hempty _
  · injection hic with _ h2; rw [← h2]; exact hempty _
  · injection hic with _ h2; rw [← h2]; exact hempty _
  · injection hic with _ h2; rw [← h2]; exact hsample _
  · exact Op.noConfusion hic
  · injection hic with _ h2; rw [← h2]; exact hsample _

theorem sample_lookup_null (op : Op) (hop : op ∈ retryOps)
    (i : UpdateInfo) (c : EntityComponentManager) (hic : op = Op.PreUpdate i c) :
    c.linkByName wheelCommanded.model "wheel" = kNullEntity := by
  simp only [retryOps, List.mem_cons, List.mem_singleton, List.not_mem_nil, or_false] at hop
  rcases hop with h | h | h <;> rw [h] at hic <;> injection hic with _ h2 <;> rw [← h2] <;> rfl

/-- Witness of C7: the link `wheel` is missing for three unpaused `PreUpdate`
calls and is entity `7` at the fourth. -/
theorem retried_resolution_witness :
    UnorderedMap.find (run retryOps wheelCommanded).links "wheel" = none ∧
    UnorderedMap.find
        (PreUpdate unpausedStep sampleEcm (run retryOps wheelCommanded)).1.links "wheel"
      = some 7 ∧
    ∀ store : EntityComponentManager,
      (store.applyWrites
          (PreUpdate unpausedStep sampleEcm (run retryOps wheelCommanded)).2).linearVelocityCmd 7
        = some ⟨1, 2, 3⟩ ∧
      (store.applyWrites
          (PreUpdate unpausedStep sampleEcm (run retryOps wheelCommanded)).2).angularVelocityCmd 7
        = some ⟨4, 5, 6⟩ :=
  (retried_resolution wheelCommanded "wheel" ⟨1, 2, 3⟩ ⟨4, 5, 6⟩ 7 retryOps laterOps
    unpausedStep sampleEcm
    (by unfold WellFormed; decide) (by decide) (by decide)
    (fun _ _ hx => Option.noConfusion hx)
    (fun op hop i c hic _ => sample_lookup_null op hop i c hic)
    rfl rfl (by decide)
    (fun op hop i c hic _ n' hn' => sample_lookup_others op hop i c hic n' hn')
    ⟨by decide, by decide, by decide, by decide, by decide, by decide, trivial⟩).2.1

/-! ## C8: paused steps -/

theorem run_paused :
    ∀ (ops : List Op) (d : VelocityControlPrivate),
      (∀ op ∈ ops, PausedStep op) → run ops d = d ∧ ∀ ws ∈ trace ops d, ws = [] := by
  intro ops
  induction ops with
  | nil => intro d _; exact ⟨rfl, fun ws hws => absurd hws (List.not_mem_nil ws)⟩
  | cons op rest ih =>
    intro d h
    have hrest : ∀ x ∈ rest, PausedStep x := fun x hx => h x (List.mem_cons_of_mem op hx)
    obtain ⟨i, c, hop, hp⟩ := h op (List.mem_cons_self op rest)
    have hstep : step d op = (d, []) := by
      rcases hop with hop | hop
      · rw [hop]; exact PreUpdate_paused i c d hp
      · rw [hop]; simp [step, PostUpdate, hp]
    have hr := ih d hrest
    constructor
    · show run rest (step d op).1 = d
      rw [hstep]; exact hr.1
    · intro ws hws
      have hws' : ws = (step d op).2 ∨ ws ∈ trace rest (step d op).1 := by
        simpa [trace] using hws
      rw [hstep] at hws'
      rcases hws' with hws' | hws'
      · exact hws'
      · exact hr.2 ws hws'

/-- C8. With `paused = true`, and whatever the time delta (positive, zero or
negative), `PreUpdate` returns the private data unchanged and makes no
`SetComponentData` call (the store is unchanged), and `PostUpdate` returns the
private data unchanged; so does any sequence of paused steps.  Consequently a
message that `OnLinkCmdVel` made pending for `n` is still pending after any
number of paused steps, and the unpaused `PostUpdate` that follows (with or
without the `PreUpdate` of its step before it) turns it into the linear and
angular velocity of `n`. -/
theorem paused_steps_are_noops (d : VelocityControlPrivate) (info : UpdateInfo)
    (ecm : EntityComponentManager) (hp : info.paused = true) :
    PreUpdate info ecm d = (d, []) ∧
    (∀ store : EntityComponentManager, store.applyWrites (PreUpdate info ecm d).2 = store) ∧
    PostUpdate info ecm d = d ∧
    (∀ ops, (∀ op ∈ ops, PausedStep op) → run ops d = d ∧ ∀ ws ∈ trace ops d, ws = []) ∧
    (∀ msg mi n ops i1 c1 i2 c2, FirstMatch d.linkNames mi.Topic n →
      UnorderedMap.find d.linkVels n = none → (∀ op ∈ ops, PausedStep op) →
      i2.paused = false →
      UnorderedMap.find (run ops (OnLinkCmdVel msg mi d)).linkVels n = some msg ∧
      (run ops (OnLinkCmdVel msg mi d)).linearVelocities = d.linearVelocities ∧
      (run ops (OnLinkCmdVel msg mi d)).angularVelocities = d.angularVelocities ∧
      UnorderedMap.find
          (PostUpdate i2 c2
            (PreUpdate i1 c1 (run ops (OnLinkCmdVel msg mi d))).1).linearVelocities n
        = some (msgs.Convert msg.linear) ∧
      UnorderedMap.find
          (PostUpdate i2 c2
            (PreUpdate i1 c1 (run ops (OnLinkCmdVel msg mi d))).1).angularVelocities n
        = some (msgs.Convert msg.angular)) := by
  have hpre := PreUpdate_paused info ecm d hp
  refine ⟨hpre, ?_, ?_, ?_, ?_⟩
  · intro store; rw [hpre]; rfl
  · simp [PostUpdate, hp]
  · intro ops hops; exact run_paused ops d hops
  · intro msg mi n ops i1 c1 i2 c2 hfirst hnone hops hp2
    rw [(run_paused ops (OnLinkCmdVel msg mi d) hops).1]
    have e1 : OnLinkCmdVel msg mi d = { d with linkVels := d.linkVels ++ [(n, msg)] } := by
      rw [OnLinkCmdVel_first_match msg mi d n hfirst, UnorderedMap.insert_of_find_none msg hnone]
    have hfound : UnorderedMap.find (d.linkVels ++ [(n, msg)]) n = some msg := by
      rw [UnorderedMap.find_append, hnone]
      simp [UnorderedMap.find]
    rw [e1, PreUpdate_linkVels i1 c1 d]
    refine ⟨hfound, rfl, rfl, ?_, ?_⟩
    · simp only [PostUpdate, hp2, UpdateLinkVelocity, Bool.false_eq_true, if_false]
      rw [drain_append]
      simp [drain, UnorderedMap.find_assign]
    · simp only [PostUpdate, hp2, UpdateLinkVelocity, Bool.false_eq_true, if_false]
      rw [drain_append]
      simp [drain, UnorderedMap.find_assign]

/-- Witness of C8: a paused step with a negative time delta. -/
theorem paused_steps_are_noops_witness :
    PreUpdate pausedStep sampleEcm oneShotData = (oneShotData, []) ∧
    PostUpdate pausedStep sampleEcm oneShotData = oneShotData :=
  have h := paused_steps_are_noops oneShotData pausedStep sampleEcm rfl
  ⟨h.1, h.2.2.1⟩

/-! ## C5: topic attribution -/

/-- C5. `OnLinkCmdVel` leaves the private data unchanged when no configured
name's fragment occurs in the topic.  When `n` is the first configured name
whose fragment `/n/cmd_vel` occurs in the topic, only the pending message of
`n` can change: it becomes the message when `n` had none, it is kept (the
message is dropped, the private data is unchanged) when `n` had one, and the
pending message of every other name is unchanged in both cases. -/
theorem topic_attribution (msg : msgs.Twist) (info : transport.MessageInfo)
    (d : VelocityControlPrivate) :
    ((∀ x ∈ d.linkNames, ¬ TopicNames info.Topic x) → OnLinkCmdVel msg info d = d) ∧
    (∀ n, FirstMatch d.linkNames info.Topic n →
      OnLinkCmdVel msg info d
        = { d with linkVels := (OnLinkCmdVel msg info d).linkVels } ∧
      (UnorderedMap.find d.linkVels n = none →
        UnorderedMap.find (OnLinkCmdVel msg info d).linkVels n = some msg) ∧
      (∀ old, UnorderedMap.find d.linkVels n = some old → OnLinkCmdVel msg info d = d) ∧
      (∀ k, k ≠ n →
        UnorderedMap.find (OnLinkCmdVel msg info d).linkVels k
          = UnorderedMap.find d.linkVels k)) := by
  constructor
  · intro h
    unfold OnLinkCmdVel
    rw [insertPending_no_match msg info.Topic d.linkNames d.linkVels h]
  · intro n hn
    rw [OnLinkCmdVel_first_match msg info d n hn]
    refine ⟨rfl, ?_, ?_, ?_⟩
    · intro hnone
      exact UnorderedMap.find_insert_self msg hnone
    · intro old hold
      rw [UnorderedMap.insert_of_find_some msg hold]
    · intro k hk
      exact UnorderedMap.find_insert_ne d.linkVels msg (fun e => hk e.symm)

/-- Witness of C5: a message on the topic of `wheel` becomes the pending
message of `wheel`. -/
theorem topic_attribution_witness :
    FirstMatch sampleData.linkNames wheelTopic.Topic "wheel" ∧
    UnorderedMap.find (OnLinkCmdVel sampleTwist wheelTopic sampleData).linkVels "wheel"
      = some sampleTwist :=
  ⟨sample_firstMatch,
    ((topic_attribution sampleTwist wheelTopic sampleData).2 "wheel" sample_firstMatch).2.1 rfl⟩

/-! ## C6: the drain -/

/-- C6. An unpaused `PostUpdate` sets the linear and angular velocity of every
name with a pending message to the decoded message, leaves the velocities of
every name without pending message unchanged, empties the pending buffer and
leaves the model command, its persistence flags, the configured names, the
link map, the model and the subscriptions unchanged (the component manager is
`const`: `PostUpdate` makes no `SetComponentData` call). -/
theorem drain_postcondition (info : UpdateInfo) (ecm : EntityComponentManager)
    (d : VelocityControlPrivate) (hp : info.paused = false)
    (hkeys : (UnorderedMap.keys d.linkVels).Nodup) :
    (∀ n m, UnorderedMap.find d.linkVels n = some m →
      UnorderedMap.find (PostUpdate info ecm d).linearVelocities n
          = some (msgs.Convert m.linear) ∧
      UnorderedMap.find (PostUpdate info ecm d).angularVelocities n
          = some (msgs.Convert m.angular)) ∧
    (∀ n, UnorderedMap.find d.linkVels n = none →
      UnorderedMap.find (PostUpdate info ecm d).linearVelocities n
          = UnorderedMap.find d.linearVelocities n ∧
      UnorderedMap.find (PostUpdate info ecm d).angularVelocities n
          = UnorderedMap.find d.angularVelocities n) ∧
    (PostUpdate info ecm d).linkVels = [] ∧
    (PostUpdate info ecm d).linearVelocity = d.linearVelocity ∧
    (PostUpdate info ecm d).angularVelocity = d.angularVelocity ∧
    (PostUpdate info ecm d).persistentLinearVelocity = d.persistentLinearVelocity ∧
    (PostUpdate info ecm d).persistentAngularVelocity = d.persistentAngularVelocity ∧
    (PostUpdate info ecm d).links = d.links ∧
    (PostUpdate info ecm d).linkNames = d.linkNames ∧
    (PostUpdate info ecm d).model = d.model ∧
    (PostUpdate info ecm d).node = d.node ∧
    (step d (Op.PostUpdate info ecm)).2 = [] := by
  have hm := drain_model d.linkVels d
  have hf := drain_find d.linkVels hkeys d
  have hpost : PostUpdate info ecm d = { drain d.linkVels d with linkVels := [] } := by
    simp [PostUpdate, hp, UpdateLinkVelocity]
  rw [hpost]
  refine ⟨?_, ?_, rfl, hm.2.2.2.2.1, hm.2.2.1, hm.2.2.2.2.2.1, hm.2.2.2.1,
    hm.2.2.2.2.2.2.2.1, hm.2.2.2.2.2.2.1, hm.2.1, hm.1, rfl⟩
  · intro n m hnm
    have := hf n
    rw [hnm] at this
    exact this
  · intro n hn
    have := hf n
    rw [hn] at this
    exact this

/-- Witness of C6: draining the pending message of `wheel`. -/
theorem drain_postcondition_witness :
    UnorderedMap.find
        (PostUpdate unpausedStep sampleEcm
          (OnLinkCmdVel sampleTwist wheelTopic sampleData)).angularVelocities "wheel"
      = some ⟨4, 5, 6⟩ :=
  ((drain_postcondition unpausedStep sampleEcm
      (OnLinkCmdVel sampleTwist wheelTopic sampleData) rfl (by decide)).1
    "wheel" sampleTwist (by decide)).2

/-! ## C9: `Configure` on an entity that is not a model -/

/-- C9, as stated, fails: entity `5` is not a model in `sampleEcm`, `Configure`
returns early, and the first unpaused `PreUpdate` still calls
`SetComponentData` twice, leaving the zero vector as angular and linear
velocity command of entity `5`. -/
theorem failed_configure_still_writes :
    sampleEcm.modelValid 5 = false ∧
    (PreUpdate unpausedStep sampleEcm
        (Configure (fun t => t) 5 sampleSdf sampleEcm VelocityControlPrivate.init)).2
      = [⟨ComponentKind.AngularVelocityCmd, 5, math.Vector3d.Zero⟩,
          ⟨ComponentKind.LinearVelocityCmd, 5, math.Vector3d.Zero⟩] ∧
    (PreUpdate unpausedStep sampleEcm
        (Configure (fun t => t) 5 sampleSdf sampleEcm VelocityControlPrivate.init)).2 ≠ [] ∧
    (sampleEcm.applyWrites
        (PreUpdate unpausedStep sampleEcm
          (Configure (fun t => t) 5 sampleSdf sampleEcm
            VelocityControlPrivate.init)).2).angularVelocityCmd 5
      = some math.Vector3d.Zero := by
  refine ⟨by decide, by decide, by decide, by decide⟩

theorem run_after_failed_configure (entity : Entity) :
    ∀ ops : List Op, (∀ op ∈ ops, StepHook op) →
      run ops { VelocityControlPrivate.init with model := entity }
        = { VelocityControlPrivate.init with model := entity } ∧
      trace ops { VelocityControlPrivate.init with model := entity }
        = ops.map (writesAfterFailedConfigure entity) := by
  intro ops
  induction ops with
  | nil => intro _; exact ⟨rfl, rfl⟩
  | cons op rest ih =>
    intro h
    have hrest := ih (fun x hx => h x (List.mem_cons_of_mem op hx))
    obtain ⟨i, c, hop⟩ := h op (List.mem_cons_self op rest)
    have hstep : step { VelocityControlPrivate.init with model := entity } op
        = ({ VelocityControlPrivate.init with model := entity },
            writesAfterFailedConfigure entity op) := by
      rcases hop with hop | hop
      · rw [hop]
        cases hp : i.paused with
        | true =>
          simp only [step, writesAfterFailedConfigure, hp, if_true]
          exact PreUpdate_paused i c _ hp
        | false =>
          simp only [step, writesAfterFailedConfigure, hp, Bool.false_eq_true, if_false]
          rw [PreUpdate_unpaused i c _ hp]
          rfl
      · rw [hop]
        cases hp : i.paused with
        | true => simp [step, writesAfterFailedConfigure, PostUpdate, hp]
        | false =>
          simp only [step, writesAfterFailedConfigure, PostUpdate, hp, Bool.false_eq_true,
            if_false]
          rfl
    constructor
    · show run rest (step _ op).1 = _
      rw [hstep]; exact hrest.1
    · show (step _ op).2 :: trace rest (step _ op).1 = _
      rw [hstep, List.map_cons]
      exact congrArg _ hrest.2

/-- C9, amended. When `Configure` is called on a fresh plugin with an entity
that is not a valid model, it only records the entity: no subscription is
made (so the transport has no callback to deliver a message to), no link name
is configured and the model command keeps its default, the zero vector for
the linear and the angular velocity, both persistent.  From then on, along any
sequence of `PreUpdate` / `PostUpdate` calls, the private data never changes,
every `PostUpdate` and every paused `PreUpdate` makes no `SetComponentData`
call, and every unpaused `PreUpdate` writes the zero vector to the angular and
to the linear velocity command of that entity, and nothing else. -/
theorem failed_configure (asValidTopic : String → String) (entity : Entity)
    (sdf : sdf.Element) (ecm : EntityComponentManager)
    (hinvalid : ecm.modelValid entity = false) :
    Configure asValidTopic entity sdf ecm VelocityControlPrivate.init
      = { VelocityControlPrivate.init with model := entity } ∧
    (Configure asValidTopic entity sdf ecm VelocityControlPrivate.init).node = [] ∧
    (Configure asValidTopic entity sdf ecm VelocityControlPrivate.init).linkNames = [] ∧
    ∀ ops : List Op, (∀ op ∈ ops, StepHook op) →
      run ops (Configure asValidTopic entity sdf ecm VelocityControlPrivate.init)
        = Configure asValidTopic entity sdf ecm VelocityControlPrivate.init ∧
      trace ops (Configure asValidTopic entity sdf ecm VelocityControlPrivate.init)
        = ops.map (writesAfterFailedConfigure entity) := by
  have hc : Configure asValidTopic entity sdf ecm VelocityControlPrivate.init
      = { VelocityControlPrivate.init with model := entity } := by
    simp [Configure, hinvalid]
  rw [hc]
  exact ⟨rfl, rfl, rfl, run_after_failed_configure entity⟩

/-- Witness of C9 (amended): the plugin attached to entity `5`, which is not a
model, then a paused and an unpaused step. -/
theorem failed_configure_witness :
    trace [Op.PreUpdate pausedStep sampleEcm, Op.PostUpdate pausedStep sampleEcm,
        Op.PreUpdate unpausedStep sampleEcm, Op.PostUpdate unpausedStep sampleEcm]
      (Configure (fun t => t) 5 sampleSdf sampleEcm VelocityControlPrivate.init)
    = [[], [],
        [⟨ComponentKind.AngularVelocityCmd, 5, math.Vector3d.Zero⟩,
          ⟨ComponentKind.LinearVelocityCmd, 5, math.Vector3d.Zero⟩], []] :=
  ((failed_configure (fun t => t) 5 sampleSdf sampleEcm (by decide)).2.2.2
    [Op.PreUpdate pausedStep sampleEcm, Op.PostUpdate pausedStep sampleEcm,
      Op.PreUpdate unpausedStep sampleEcm, Op.PostUpdate unpausedStep sampleEcm]
    (by
      intro op hop
      simp only [List.mem_cons, List.mem_singleton, List.not_mem_nil, or_false] at hop
      rcases hop with h | h | h | h <;> rw [h]
      · exact ⟨_, _, Or.inl rfl⟩
      · exact ⟨_, _, Or.inr rfl⟩
      · exact ⟨_, _, Or.inl rfl⟩
      · exact ⟨_, _, Or.inr rfl⟩)).2

/-! ## C11: resolution is monotonic -/

theorem find_of_prefix {β : Type} (m m' : UnorderedMap β) (h : m <+: m') (k : String)
    (v : β) (hk : UnorderedMap.find m k = some v) : UnorderedMap.find m' k = some v := by
  obtain ⟨t, ht⟩ := h
  rw [← ht, UnorderedMap.find_append, hk]
  rfl

theorem insert_gains {β : Type} (m : UnorderedMap β) (k : String) (v : β) :
    m <+: UnorderedMap.insert m k v ∧
    ∀ p ∈ UnorderedMap.insert m k v, p ∈ m ∨ p = (k, v) := by
  cases hk : UnorderedMap.find m k with
  | some w =>
    rw [UnorderedMap.insert_of_find_some v hk]
    exact ⟨List.prefix_refl m, fun p hp => Or.inl hp⟩
  | none =>
    rw [UnorderedMap.insert_of_find_none v hk]
    refine ⟨List.prefix_append m _, fun p hp => ?_⟩
    rcases List.mem_append.mp hp with h | h
    · exact Or.inl h
    · exact Or.inr (List.mem_singleton.mp h)

theorem findLinks_gains (ecm : EntityComponentManager) (model : Entity) :
    ∀ (names : List String) (links : UnorderedMap Entity),
      links <+: findLinks ecm model names links ∧
      ∀ p ∈ findLinks ecm model names links,
        p ∈ links ∨ (p.1 ∈ names ∧ p.2 ≠ kNullEntity) := by
  intro names
  induction names with
  | nil => intro links; exact ⟨List.prefix_refl links, fun p hp => Or.inl hp⟩
  | cons a rest ih =>
    intro links
    have hweaken : ∀ (l : UnorderedMap Entity) (p : String × Entity),
        (p ∈ l ∨ (p.1 ∈ rest ∧ p.2 ≠ kNullEntity)) →
        (p ∈ l ∨ (p.1 ∈ a :: rest ∧ p.2 ≠ kNullEntity)) := by
      intro l p h
      rcases h with h | h
      · exact Or.inl h
      · exact Or.inr ⟨List.mem_cons_of_mem a h.1, h.2⟩
    unfold findLinks
    cases ha : UnorderedMap.find links a with
    | some x =>
      simp only []
      exact ⟨(ih links).1, fun p hp => hweaken links p ((ih links).2 p hp)⟩
    | none =>
      simp only []
      by_cases hl : ecm.linkByName model a ≠ kNullEntity
      · rw [if_pos hl]
        have hins := insert_gains links a (ecm.linkByName model a)
        have hrec := ih (UnorderedMap.insert links a (ecm.linkByName model a))
        refine ⟨List.IsPrefix.trans hins.1 hrec.1, fun p hp => ?_⟩
        rcases hrec.2 p hp with h | h
        · rcases hins.2 p h with h' | h'
          · exact Or.inl h'
          · rw [h']
            exact Or.inr ⟨List.mem_cons_self a rest, hl⟩
        · exact Or.inr ⟨List.mem_cons_of_mem a h.1, h.2⟩
      · rw [if_neg hl]
        exact ⟨(ih links).1, fun p hp => hweaken links p ((ih links).2 p hp)⟩

theorem linksAfter_gains (ecm : EntityComponentManager) (d : VelocityControlPrivate) :
    d.links <+: linksAfter ecm d ∧
    ∀ p ∈ linksAfter ecm d, p ∈ d.links ∨ (p.1 ∈ d.linkNames ∧ p.2 ≠ kNullEntity) := by
  unfold linksAfter
  by_cases h1 : d.linkNames.isEmpty = true
  · rw [if_pos h1]; exact ⟨List.prefix_refl _, fun p hp => Or.inl hp⟩
  · rw [if_neg h1]
    by_cases h2 : UnorderedMap.size d.links ≠ d.linkNames.length
    · rw [if_pos h2]; exact findLinks_gains ecm d.model d.linkNames d.links
    · rw [if_neg h2]; exact ⟨List.prefix_refl _, fun p hp => Or.inl hp⟩

theorem step_gains (d : VelocityControlPrivate) (op : Op) :
    d.links <+: (step d op).1.links ∧
    ∀ p ∈ (step d op).1.links, p ∈ d.links ∨ (p.1 ∈ d.linkNames ∧ p.2 ≠ kNullEntity) := by
  rcases unpaused_or_links op with ⟨i, c, hop, hpz⟩ | hpaused
  · subst hop
    have hlinks : (step d (Op.PreUpdate i c)).1.links = linksAfter c d := by
      simp only [step]
      rw [PreUpdate_unpaused i c d hpz]
    rw [hlinks]
    exact linksAfter_gains c d
  · rw [step_links d op hpaused]
    exact ⟨List.prefix_refl _, fun p hp => Or.inl hp⟩

theorem run_gains :
    ∀ (ops : List Op) (d : VelocityControlPrivate),
      (run ops d).linkNames = d.linkNames ∧
      d.links <+: (run ops d).links ∧
      ∀ p ∈ (run ops d).links, p ∈ d.links ∨ (p.1 ∈ d.linkNames ∧ p.2 ≠ kNullEntity) := by
  intro ops
  induction ops with
  | nil => intro d; exact ⟨rfl, List.prefix_refl _, fun p hp => Or.inl hp⟩
  | cons op rest ih =>
    intro d
    have hs := step_gains d op
    have hf := step_frame d op
    have hr := ih (step d op).1
    refine ⟨hr.1.trans hf.2.1, List.IsPrefix.trans hs.1 hr.2.1, fun p hp => ?_⟩
    rcases hr.2.2 p hp with h | h
    · exact hs.2 p h
    · rw [hf.2.1] at h
      exact Or.inr h

/-- C11. Along every sequence of `OnCmdVel`, `OnLinkCmdVel`, `PreUpdate` and
`PostUpdate` calls, whatever the component managers (and so the link lookups)
handed to them: once the link map maps a name `n` to a handle `e`, it maps `n`
to `e` after every further sequence of calls, whatever the later lookups
return; the link map of a later state extends the earlier one (entries are
only added, none is removed or changed); and every entry that was added
belongs to a configured name and holds a handle that is not the null
entity. -/
theorem resolution_is_monotonic (d : VelocityControlPrivate) (ops1 ops2 : List Op) :
    (∀ n e, UnorderedMap.find (run ops1 d).links n = some e →
      UnorderedMap.find (run (ops1 ++ ops2) d).links n = some e) ∧
    (run ops1 d).links <+: (run (ops1 ++ ops2) d).links ∧
    (∀ p ∈ (run (ops1 ++ ops2) d).links,
      p ∈ (run ops1 d).links ∨ (p.1 ∈ d.linkNames ∧ p.2 ≠ kNullEntity)) := by
  have h1 := run_gains ops1 d
  have h2 := run_gains ops2 (run ops1 d)
  rw [run_append]
  refine ⟨fun n e hne => find_of_prefix _ _ h2.2.1 n e hne, h2.2.1, fun p hp => ?_⟩
  rcases h2.2.2 p hp with h | h
  · exact Or.inl h
  · rw [h1.1] at h
    exact Or.inr h

/-- Witness of C11: `wheel` is resolved to entity `7`; afterwards its lookup
fails, then returns entity `9`, and the link map still holds `7`. -/
theorem resolution_is_monotonic_witness :
    UnorderedMap.find
        (run ([Op.PreUpdate unpausedStep sampleEcm] ++ changingOps) wheelCommanded).links
        "wheel"
      = some 7 :=
  (resolution_is_monotonic wheelCommanded [Op.PreUpdate unpausedStep sampleEcm]
    changingOps).1 "wheel" 7 (by decide)

end VelocityControl
